import Mathlib

/-!
# encryption-cpp: key derivation and stream transform of `xor.cpp`

A `std::string` is a `List Char` (on ASCII text a `Char` and a C++ `char` have the same
value), a `uint8_t` is a `Fin 256`, and C++ `int` arithmetic is carried out in `Int` (all
values stay far inside 32 bits) with `/` and `%` truncating as in C++.
A `size_t` counter is a `Nat`: a file of `2^64` bytes does not exist.  A loop whose number of
passes is not fixed by the shape of its input runs on fuel; running out of it is `none` or
`Run.outOfFuel`.  A `%` by zero and an index outside a vector are faults of their own.
-/

namespace XorCpp

/-! ## Data model -/

/-- One `uint8_t`. -/
abbrev Byte := Fin 256

/-- The conversion `static_cast<uint8_t>(n)` of an `int`. -/
def toByte (n : Int) : Byte :=
  ⟨(n % 256).toNat, by
    have h1 : 0 ≤ n % 256 := Int.emod_nonneg n (by decide)
    have h2 : n % 256 < 256 := Int.emod_lt_of_pos n (by decide)
    omega⟩

/-- The `char` that `push_back` receives for the `int` value `n`. -/
def toChar (n : Int) : Char := Char.ofNat n.toNat

/-- How a piece of the program ends: with a value, or in one of the two kinds of undefined
behaviour the code could meet, or with the fuel of the model used up. -/
inductive Run (α : Type) where
  | done (a : α)
  | divisionByZero
  | outOfBounds
  | outOfFuel
  deriving DecidableEq

/-! ## `divmod256` and `decimalStringToBytes` -/

/-- The `for (char c : decimal)` loop of `divmod256`, from the state `(quotient, remainder)`. -/
def divmod256Loop : List Char → List Char → Int → List Char × Int
  | [], quotient, remainder => (quotient, remainder)
  | c :: rest, quotient, remainder =>
    let digit : Int := (c.toNat : Int) - ('0'.toNat : Int)
    let value : Int := remainder * 10 + digit
    let q : Int := value.tdiv 256
    let remainder1 : Int := value.tmod 256
    let quotient1 : List Char :=
      if !quotient.isEmpty || q > 0 then quotient ++ [toChar (('0'.toNat : Int) + q)]
      else quotient
    divmod256Loop rest quotient1 remainder1

/-- The function `divmod256`: divide a decimal string by 256, return quotient and remainder;
the loop, then the `"0"` default of an empty quotient. -/
def divmod256 (decimal : List Char) : List Char × Byte :=
  let r := divmod256Loop decimal [] 0
  let quotient := if r.1.isEmpty then "0".toList else r.1
  (quotient, toByte r.2)

/-- The `while (decimal != "0")` loop of `decimalStringToBytes`; one unit of fuel per test of
the loop condition. -/
def decimalStringToBytesLoop : Nat → List Char → List Byte → Option (List Byte)
  | 0, _, _ => none
  | fuel + 1, decimal, bytes =>
    if decimal ≠ "0".toList then
      let r := divmod256 decimal
      decimalStringToBytesLoop fuel r.1 (bytes ++ [r.2])
    else some bytes

/-- The function `decimalStringToBytes`: the loop, the `[0]` default and the final
`std::reverse`.  The loop is given `decimal.size() + 2` units of fuel. -/
def decimalStringToBytes (decimal : List Char) : Option (List Byte) :=
  (decimalStringToBytesLoop (decimal.length + 2) decimal []).map fun bytes =>
    (if bytes.isEmpty then bytes ++ [0] else bytes).reverse

/-! ## `processFile` -/

/-- The constant `BUFFER_SIZE` of `processFile`. -/
def BUFFER_SIZE : Nat := 4 * 1024 * 1024

/-- The byte `resultByte` of `processFile` for one data byte and one key byte: the `int`
expression of the source, then the conversion to `uint8_t`. -/
def resultByte (mode : List Char) (dataByte keyByte : Byte) : Byte :=
  toByte (if mode = "enc".toList then ((dataByte.val : Int) + keyByte.val).tmod 256
    else ((256 : Int) + dataByte.val - keyByte.val).tmod 256)

/-- The `for` loop of `processFile` over the bytes of the buffer not yet visited, from the
cursor `keyIndex`; it yields the rewritten bytes and the cursor after the last one. -/
def forLoop (key : List Byte) (mode : List Char) : List Byte → Nat → Run (List Byte × Nat)
  | [], keyIndex => .done ([], keyIndex)
  | dataByte :: rest, keyIndex =>
    match key[keyIndex]? with
    | none => .outOfBounds
    | some keyByte =>
      if key.length = 0 then .divisionByZero
      else
        match forLoop key mode rest ((keyIndex + 1) % key.length) with
        | .done (out, last) => .done (resultByte mode dataByte keyByte :: out, last)
        | .divisionByZero => .divisionByZero
        | .outOfBounds => .outOfBounds
        | .outOfFuel => .outOfFuel

/-- The body of the `while` loop of `processFile` after a read of `buffer` (a non-empty read
in the program): the cursor is set from `step`, the buffer is rewritten and written out, and
`step` grows by the number of bytes read.  The result is the bytes written and the new
`step`. -/
def chunkBody (key : List Byte) (mode : List Char) (step : Nat) (buffer : List Byte) :
    Run (List Byte × Nat) :=
  if key.length = 0 then .divisionByZero
  else
    match forLoop key mode buffer (step % key.length) with
    | .done (out, _) => .done (out, step + buffer.length)
    | .divisionByZero => .divisionByZero
    | .outOfBounds => .outOfBounds
    | .outOfFuel => .outOfFuel

/-- The `while (inFile)` loop of `processFile` for a buffer of `bufferSize` bytes: `inFile` is
what is left to read, `outFile` what has been written.  A read of no byte leaves the loop by
`break`; a read of fewer bytes than asked sets the stream's fail bit, which ends the loop
after that buffer. -/
def whileLoop (bufferSize : Nat) (key : List Byte) (mode : List Char) :
    Nat → List Byte → Nat → List Byte → Run (List Byte)
  | 0, _, _, _ => .outOfFuel
  | fuel + 1, inFile, step, outFile =>
    let buffer := inFile.take bufferSize
    let bytesRead := buffer.length
    if bytesRead ≤ 0 then .done outFile
    else
      match chunkBody key mode step buffer with
      | .done (out, step1) =>
        if bytesRead < bufferSize then .done (outFile ++ out)
        else whileLoop bufferSize key mode fuel (inFile.drop bufferSize) step1 (outFile ++ out)
      | .divisionByZero => .divisionByZero
      | .outOfBounds => .outOfBounds
      | .outOfFuel => .outOfFuel

/-- The body of the `while` loop run over a given sequence of reads, `step` carried from one
to the next and the outputs concatenated: the loop of `processFile` for buffers of any
sizes. -/
def processChunks (key : List Byte) (mode : List Char) : List (List Byte) → Nat → Run (List Byte)
  | [], _ => .done []
  | buffer :: rest, step =>
    match chunkBody key mode step buffer with
    | .done (out, step1) =>
      match processChunks key mode rest step1 with
      | .done outs => .done (out ++ outs)
      | .divisionByZero => .divisionByZero
      | .outOfBounds => .outOfBounds
      | .outOfFuel => .outOfFuel
    | .divisionByZero => .divisionByZero
    | .outOfBounds => .outOfBounds
    | .outOfFuel => .outOfFuel

/-- The bytes `processFile` writes for the input bytes `input`, both files opened and `mode`
one of `"enc"` and `"dec"`: the `while` loop from `step = 0` with the 4 MB buffer.  The loop
is given one unit of fuel per input byte and one more. -/
def transcode (key : List Byte) (mode : List Char) (input : List Byte) : Run (List Byte) :=
  whileLoop BUFFER_SIZE key mode (input.length + 1) input 0 []

/-- The name of the output file of `processFile`, `none` for an unknown mode. -/
def outputName (filename mode : List Char) : Option (List Char) :=
  if mode = "enc".toList then some (filename ++ ".enc".toList)
  else if mode = "dec".toList then
    if filename.length > 4 ∧ filename.drop (filename.length - 4) = ".enc".toList then
      some (filename.take (filename.length - 4))
    else some filename
  else none

/-- What one call of `processFile` does to the file system. -/
inductive FileEffect where
  | inputNotOpened
  | unknownMode
  | outputNotOpened (name : List Char)
  | written (name : List Char) (bytes : List Byte)
  deriving DecidableEq

/-- The function `processFile`: `contents` is `none` when the input file cannot be opened, `writable` tells
whether an output file of a given name can be opened. -/
def processFile (filename : List Char) (contents : Option (List Byte))
    (writable : List Char → Bool) (key : List Byte) (mode : List Char) : Run FileEffect :=
  match contents with
  | none => .done .inputNotOpened
  | some input =>
    match outputName filename mode with
    | none => .done .unknownMode
    | some name =>
      if !writable name then .done (.outputNotOpened name)
      else
        match transcode key mode input with
        | .done bytes => .done (.written name bytes)
        | .divisionByZero => .divisionByZero
        | .outOfBounds => .outOfBounds
        | .outOfFuel => .outOfFuel

/-! ## `main` -/

/-- One entry of the input directory. -/
structure DirEntry where
  filename : List Char
  isRegularFile : Bool
  contents : Option (List Byte)

/-- What `main` does, in order. -/
inductive Event where
  | getline (line : List Char)
  | invalidMode
  | invalidKey
  | decimalStringToBytes (arg : List Char)
  | noInputDir
  | processFile (filename : List Char) (key : List Byte) (mode : List Char)
      (effect : FileEffect)
  deriving DecidableEq

/-- The test `keyInputStr.find_first_not_of("0123456789") != std::string::npos`. -/
def hasNonDigit (keyInputStr : List Char) : Bool :=
  keyInputStr.any fun c => !"0123456789".toList.contains c

/-- The `for` loop of `main` over the directory entries. -/
def mainLoop (writable : List Char → Bool) (key : List Byte) (mode : List Char) :
    List DirEntry → Run (List Event)
  | [] => .done []
  | entry :: rest =>
    if !entry.isRegularFile then mainLoop writable key mode rest
    else if entry.filename = ".".toList ∨ entry.filename = "..".toList then
      mainLoop writable key mode rest
    else
      match processFile entry.filename entry.contents writable key mode with
      | .done effect =>
        match mainLoop writable key mode rest with
        | .done events => .done (.processFile entry.filename key mode effect :: events)
        | .divisionByZero => .divisionByZero
        | .outOfBounds => .outOfBounds
        | .outOfFuel => .outOfFuel
      | .divisionByZero => .divisionByZero
      | .outOfBounds => .outOfBounds
      | .outOfFuel => .outOfFuel

/-- The function `main`: `mode` and `keyInputStr` are the two lines typed, `inputDir` the entries of the
input directory (`none` when it does not exist or is no directory).  The result is the exit
status and what was done, in order; the second line is not read when the mode is refused. -/
def main (mode keyInputStr : List Char) (inputDir : Option (List DirEntry))
    (writable : List Char → Bool) : Run (Nat × List Event) :=
  if mode ≠ "enc".toList ∧ mode ≠ "dec".toList then
    .done (1, [.getline mode, .invalidMode])
  else if keyInputStr.isEmpty || hasNonDigit keyInputStr then
    .done (1, [.getline mode, .getline keyInputStr, .invalidKey])
  else
    match decimalStringToBytes keyInputStr with
    | none => .outOfFuel
    | some key =>
      let before : List Event :=
        [.getline mode, .getline keyInputStr, .decimalStringToBytes keyInputStr]
      match inputDir with
      | none => .done (1, before ++ [.noInputDir])
      | some entries =>
        match mainLoop writable key mode entries with
        | .done events => .done (0, before ++ events)
        | .divisionByZero => .divisionByZero
        | .outOfBounds => .outOfBounds
        | .outOfFuel => .outOfFuel

/-! ## Notions the statements use -/

/-- A character in `'0'..'9'`. -/
def IsDigit (c : Char) : Prop := '0'.toNat ≤ c.toNat ∧ c.toNat ≤ '9'.toNat

instance (c : Char) : Decidable (IsDigit c) := by unfold IsDigit; infer_instance

/-- A string of ASCII decimal digits. -/
def IsDigitString (d : List Char) : Prop := ∀ c ∈ d, IsDigit c

instance (d : List Char) : Decidable (IsDigitString d) := by
  unfold IsDigitString; infer_instance

/-- The natural number a string of decimal digits denotes in base 10. -/
def decimalValue (d : List Char) : Nat :=
  d.foldl (fun acc c => acc * 10 + (c.toNat - '0'.toNat)) 0

/-- The big-endian base-256 value of a byte sequence: the sum of `b[i] * 256^(len(b)-1-i)`. -/
def bigEndianValue (b : List Byte) : Nat :=
  ∑ i : Fin b.length, (b.get i).val * 256 ^ (b.length - 1 - i.val)

/-- A string of digits with no leading `'0'`; the empty string is one. -/
def NoLeadingZero (s : List Char) : Prop := IsDigitString s ∧ s.head? ≠ some '0'

/-- The canonical decimal strings: `"0"`, and the non-empty digit strings that do not start
with `'0'`. -/
def Canonical (s : List Char) : Prop :=
  s = "0".toList ∨ (s ≠ [] ∧ NoLeadingZero s)

/-- The key byte that belongs to the global offset `i`; `0` stands in for an empty key. -/
def keyAt (key : List Byte) (i : Nat) : Byte := key.getD (i % key.length) 0

/-- The bytes of `input` rewritten one by one, the first of them standing at the global
offset `offset` of the file. -/
def stream (key : List Byte) (mode : List Char) : Nat → List Byte → List Byte
  | _, [] => []
  | offset, dataByte :: rest =>
    resultByte mode dataByte (keyAt key offset) :: stream key mode (offset + 1) rest

/-- The values `keyIndex` has at `key[keyIndex]` in the `for` loop of `processFile`, one for
each byte of the buffer, the loop entered with the cursor `keyIndex`. -/
def forLoopCursors (key : List Byte) : List Byte → Nat → List Nat
  | [], _ => []
  | _ :: rest, keyIndex => keyIndex :: forLoopCursors key rest ((keyIndex + 1) % key.length)

/-- The values `keyIndex` has at `key[keyIndex]` over a sequence of reads, byte after byte of
the file: the cursor is `step % keyLen` at the start of each read, and `step` grows by the
bytes read. -/
def processChunksCursors (key : List Byte) : List (List Byte) → Nat → List Nat
  | [], _ => []
  | buffer :: rest, step =>
    forLoopCursors key buffer (step % key.length)
      ++ processChunksCursors key rest (step + buffer.length)

/-! ## Decimal strings -/

theorem zero_toNat : '0'.toNat = 48 := by decide

theorem nine_toNat : '9'.toNat = 57 := by decide

theorem zeroString : "0".toList = ['0'] := by decide

theorem toChar_digit (q : Nat) (h : q ≤ 9) : (toChar ((48 : Int) + q)).toNat = 48 + q := by
  interval_cases q <;> decide

theorem foldl_decimal (cs : List Char) (acc : Nat) :
    cs.foldl (fun a c => a * 10 + (c.toNat - '0'.toNat)) acc
      = acc * 10 ^ cs.length + decimalValue cs := by
  induction cs generalizing acc with
  | nil => simp [decimalValue]
  | cons c cs ih =>
    simp only [List.foldl_cons, List.length_cons, decimalValue]
    rw [ih, ih (0 * 10 + _)]
    ring

theorem decimalValue_nil : decimalValue [] = 0 := rfl

theorem decimalValue_cons (c : Char) (cs : List Char) :
    decimalValue (c :: cs) = (c.toNat - 48) * 10 ^ cs.length + decimalValue cs := by
  have h := foldl_decimal cs (0 * 10 + (c.toNat - '0'.toNat))
  simp only [decimalValue, List.foldl_cons] at h ⊢
  rw [h, zero_toNat]; ring

theorem decimalValue_snoc (cs : List Char) (c : Char) :
    decimalValue (cs ++ [c]) = decimalValue cs * 10 + (c.toNat - 48) := by
  simp [decimalValue, List.foldl_append, zero_toNat]

theorem divmod256Loop_digit (c : Char) (rest quotient : List Char) (rem : Nat)
    (hc : IsDigit c) :
    divmod256Loop (c :: rest) quotient (rem : Int)
      = divmod256Loop rest
          (if quotient ≠ [] ∨ 0 < (rem * 10 + (c.toNat - 48)) / 256 then
            quotient ++ [toChar ((48 : Int) + ((rem * 10 + (c.toNat - 48)) / 256 : Nat))]
          else quotient)
          (((rem * 10 + (c.toNat - 48)) % 256 : Nat) : Int) := by
  have h48 : 48 ≤ c.toNat := by have := hc.1; rwa [zero_toNat] at this
  have hv : (rem : Int) * 10 + ((c.toNat : Int) - ('0'.toNat : Int))
      = ((rem * 10 + (c.toNat - 48) : Nat) : Int) := by
    rw [zero_toNat]; push_cast; omega
  simp only [divmod256Loop]
  have hq : ∀ n : Nat, (n : Int).tdiv 256 = ((n / 256 : Nat) : Int) :=
    fun n => (Int.ofNat_tdiv n 256).symm
  have hr : ∀ n : Nat, (n : Int).tmod 256 = ((n % 256 : Nat) : Int) :=
    fun n => (Int.ofNat_tmod n 256).symm
  rw [hv, hq, hr, zero_toNat]
  generalize rem * 10 + (c.toNat - 48) = n
  have hpos : ((n / 256 : Nat) : Int) > 0 ↔ 0 < n / 256 := by omega
  congr 1
  cases quotient with
  | nil => simp only [List.isEmpty_nil, Bool.not_true, Bool.false_or, decide_eq_true_eq, hpos,
      ne_eq, not_true_eq_false, false_or, Nat.cast_ofNat]
  | cons a l => simp

theorem isDigit_toChar (q : Nat) (h : q ≤ 9) : IsDigit (toChar ((48 : Int) + q)) := by
  interval_cases q <;> decide

theorem toChar_ne_zero (q : Nat) (h : q ≤ 9) (h0 : 0 < q) : toChar ((48 : Int) + q) ≠ '0' := by
  interval_cases q <;> decide

theorem divmod256Loop_spec (cs : List Char) :
    ∀ (quotient : List Char) (rem : Nat), IsDigitString cs → NoLeadingZero quotient →
      rem < 256 →
      ∃ (q1 : List Char) (r1 : Nat), divmod256Loop cs quotient (rem : Int) = (q1, (r1 : Int))
        ∧ r1 < 256 ∧ NoLeadingZero q1
        ∧ decimalValue q1 * 256 + r1
            = (decimalValue quotient * 256 + rem) * 10 ^ cs.length + decimalValue cs
        ∧ q1.length ≤ quotient.length + cs.length := by
  induction cs with
  | nil =>
    intro quotient rem _ hq hr
    exact ⟨quotient, rem, rfl, hr, hq, by simp [decimalValue_nil], by simp⟩
  | cons c cs ih =>
    intro quotient rem hcs hq hr
    have hc : IsDigit c := hcs c (List.mem_cons_self _ _)
    have hcs1 : IsDigitString cs := fun x hx => hcs x (List.mem_cons_of_mem _ hx)
    have h48 : 48 ≤ c.toNat := by have := hc.1; rwa [zero_toNat] at this
    have h57 : c.toNat ≤ 57 := by have := hc.2; rwa [nine_toNat] at this
    rw [divmod256Loop_digit c cs quotient rem hc]
    set n := rem * 10 + (c.toNat - 48) with hn
    have hq9 : n / 256 ≤ 9 := by omega
    have hr1 : n % 256 < 256 := Nat.mod_lt _ (by decide)
    by_cases hpush : quotient ≠ [] ∨ 0 < n / 256
    · rw [if_pos hpush]
      have hq1 : NoLeadingZero (quotient ++ [toChar ((48 : Int) + (n / 256 : Nat))]) := by
        refine ⟨?_, ?_⟩
        · intro x hx
          rcases List.mem_append.1 hx with hx | hx
          · exact hq.1 x hx
          · rw [List.mem_singleton.1 hx]; exact isDigit_toChar _ hq9
        · cases quotient with
          | nil =>
            have h0 : 0 < n / 256 := by
              rcases hpush with h | h
              · exact absurd rfl h
              · exact h
            simpa using toChar_ne_zero _ hq9 h0
          | cons a l => simpa using hq.2
      obtain ⟨q1, r1, he, hlt, hnz, hval, hlen⟩ := ih _ (n % 256) hcs1 hq1 hr1
      refine ⟨q1, r1, he, hlt, hnz, ?_, ?_⟩
      · rw [hval, decimalValue_snoc, toChar_digit _ hq9, decimalValue_cons, List.length_cons,
          pow_succ]
        have hdm := Nat.div_add_mod n 256
        have h1 : 48 + n / 256 - 48 = n / 256 := by omega
        rw [h1]
        have : (decimalValue quotient * 10 + n / 256) * 256 + n % 256
            = decimalValue quotient * 256 * 10 + n := by omega
        rw [this, hn]; ring
      · simp only [List.length_append, List.length_singleton, List.length_cons,
          List.length_nil] at hlen ⊢
        omega
    · rw [if_neg hpush]
      have hq0 : quotient = [] := by
        by_contra h; exact hpush (Or.inl h)
      have hn0 : n / 256 = 0 := by
        by_contra h; exact hpush (Or.inr (Nat.pos_of_ne_zero h))
      obtain ⟨q1, r1, he, hlt, hnz, hval, hlen⟩ := ih _ (n % 256) hcs1 hq hr1
      refine ⟨q1, r1, he, hlt, hnz, ?_, ?_⟩
      · rw [hval, decimalValue_cons, List.length_cons, pow_succ, hq0, decimalValue_nil]
        have hdm := Nat.div_add_mod n 256
        have : n % 256 = n := by omega
        rw [this, hn]; ring
      · simp only [List.length_cons] at hlen ⊢
        omega

theorem toByte_natCast (n : Nat) (h : n < 256) : (toByte (n : Int)).val = n := by
  simp only [toByte]
  omega

theorem decimalValue_zeroString : decimalValue "0".toList = 0 := by decide

theorem divmod256Loop_top_length (d : List Char) (hd : IsDigitString d) :
    d = [] ∨ (divmod256Loop d [] 0).1.length + 1 ≤ d.length := by
  cases d with
  | nil => exact Or.inl rfl
  | cons c cs =>
    right
    have hc : IsDigit c := hd c (List.mem_cons_self _ _)
    have hcs : IsDigitString cs := fun x hx => hd x (List.mem_cons_of_mem _ hx)
    have h57 : c.toNat ≤ 57 := by have := hc.2; rwa [nine_toNat] at this
    have h := divmod256Loop_digit c cs [] 0 hc
    rw [Nat.cast_zero] at h
    rw [h]
    have hn0 : (0 * 10 + (c.toNat - 48)) / 256 = 0 := by omega
    have hno : ¬ (([] : List Char) ≠ [] ∨ 0 < (0 * 10 + (c.toNat - 48)) / 256) := by
      rw [hn0]; simp
    rw [if_neg hno]
    obtain ⟨q1, r1, he, _, _, _, hlen⟩ :=
      divmod256Loop_spec cs [] ((0 * 10 + (c.toNat - 48)) % 256) hcs
        ⟨fun _ h => absurd h (List.not_mem_nil _), by simp⟩ (Nat.mod_lt _ (by decide))
    rw [he]
    simp only [List.length_nil, List.length_cons] at hlen ⊢
    omega

theorem divmod256_spec (d : List Char) (hd : IsDigitString d) :
    (divmod256 d).2.val = decimalValue d % 256
      ∧ decimalValue (divmod256 d).1 = decimalValue d / 256
      ∧ Canonical (divmod256 d).1
      ∧ ((divmod256 d).1 = "0".toList ∨ (divmod256 d).1.length + 1 ≤ d.length) := by
  obtain ⟨q1, r1, he, hlt, hnz, hval, _⟩ :=
    divmod256Loop_spec d [] 0 hd ⟨fun _ h => absurd h (List.not_mem_nil _), by simp⟩
      (by decide)
  rw [Nat.cast_zero] at he
  have hlen := divmod256Loop_top_length d hd
  simp only [decimalValue_nil, Nat.zero_mul, Nat.add_zero, Nat.zero_add] at hval
  simp only [divmod256, he] at hlen ⊢
  have hr : r1 = decimalValue d % 256 := by omega
  have hq : decimalValue q1 = decimalValue d / 256 := by omega
  refine ⟨by rw [toByte_natCast r1 hlt, hr], ?_, ?_, ?_⟩
  · cases q1 with
    | nil =>
      simp only [List.isEmpty_nil, if_true]
      rw [decimalValue_zeroString, ← hq, decimalValue_nil]
    | cons a l => simpa using hq
  · cases q1 with
    | nil => exact Or.inl (by simp)
    | cons a l => exact Or.inr (by simpa using hnz)
  · cases q1 with
    | nil => exact Or.inl (by simp)
    | cons a l =>
      rcases hlen with h | h
      · subst h
        simp [divmod256Loop] at he
      · exact Or.inr (by simpa using h)

theorem canonical_isDigitString (s : List Char) (h : Canonical s) : IsDigitString s := by
  rcases h with h | h
  · subst h; decide
  · exact h.2.1

theorem canonical_pos (s : List Char) (h : Canonical s) (h0 : s ≠ "0".toList) :
    0 < decimalValue s := by
  rcases h with h | ⟨hne, hdig, hhead⟩
  · exact absurd h h0
  · cases s with
    | nil => exact absurd rfl hne
    | cons c cs =>
      have hc : IsDigit c := hdig c (List.mem_cons_self _ _)
      have h48 : 48 ≤ c.toNat := by have := hc.1; rwa [zero_toNat] at this
      have hc0 : c.toNat ≠ 48 := by
        intro h
        apply hhead
        have : c = Char.ofNat 48 := by rw [← h, Char.ofNat_toNat]
        simp [this]
      rw [decimalValue_cons]
      have hp : 0 < 10 ^ cs.length := pow_pos (by decide) _
      have : 0 < (c.toNat - 48) * 10 ^ cs.length := Nat.mul_pos (by omega) hp
      omega

theorem decimalStringToBytesLoop_pass (fuel : Nat) (d : List Char) (bytes : List Byte)
    (h0 : d ≠ "0".toList) :
    decimalStringToBytesLoop (fuel + 1) d bytes
      = decimalStringToBytesLoop fuel (divmod256 d).1 (bytes ++ [(divmod256 d).2]) := by
  rw [decimalStringToBytesLoop, if_pos h0]

theorem decimalStringToBytesLoop_canonical (fuel : Nat) :
    ∀ (d : List Char) (bytes : List Byte), Canonical d →
      (d = "0".toList ∧ 1 ≤ fuel) ∨ d.length + 2 ≤ fuel →
      ∃ b : List Byte, decimalStringToBytesLoop fuel d bytes = some (bytes ++ b)
        ∧ b.map Fin.val = Nat.digits 256 (decimalValue d) := by
  induction fuel with
  | zero =>
    intro d bytes _ hf
    omega
  | succ fuel ih =>
    intro d bytes hd hf
    by_cases h0 : d = "0".toList
    · refine ⟨[], ?_, ?_⟩
      · simp [decimalStringToBytesLoop, h0]
      · rw [h0, decimalValue_zeroString]; simp
    · obtain ⟨hr, hq, hcan, hlen⟩ := divmod256_spec d (canonical_isDigitString d hd)
      have hpos := canonical_pos d hd h0
      have hfuel : ((divmod256 d).1 = "0".toList ∧ 1 ≤ fuel) ∨ (divmod256 d).1.length + 2 ≤ fuel := by
        rcases hf with hf | hf
        · exact absurd hf.1 h0
        · rcases hlen with h | h
          · exact Or.inl ⟨h, by omega⟩
          · exact Or.inr (by omega)
      obtain ⟨b, hb, hbv⟩ := ih (divmod256 d).1 (bytes ++ [(divmod256 d).2]) hcan hfuel
      refine ⟨(divmod256 d).2 :: b, ?_, ?_⟩
      · rw [decimalStringToBytesLoop_pass fuel d bytes h0, hb]; simp
      · rw [List.map_cons, hbv, hr, hq, Nat.digits_def' (by decide) hpos]

theorem decimalStringToBytes_spec (d : List Char) (hd : IsDigitString d) :
    ∃ b : List Byte, decimalStringToBytes d = some b
      ∧ b.map Fin.val
          = if decimalValue d = 0 then [0] else (Nat.digits 256 (decimalValue d)).reverse := by
  by_cases h0 : d = "0".toList
  · subst h0
    exact ⟨[0], by decide, by decide⟩
  · obtain ⟨hr, hq, hcan, hlen⟩ := divmod256_spec d hd
    have hfuel : ((divmod256 d).1 = "0".toList ∧ 1 ≤ d.length + 1)
        ∨ (divmod256 d).1.length + 2 ≤ d.length + 1 := by
      rcases hlen with h | h
      · exact Or.inl ⟨h, by omega⟩
      · exact Or.inr (by omega)
    obtain ⟨b, hb, hbv⟩ :=
      decimalStringToBytesLoop_canonical (d.length + 1) (divmod256 d).1 ([] ++ [(divmod256 d).2])
        hcan hfuel
    refine ⟨(((divmod256 d).2 :: b)).reverse, ?_, ?_⟩
    · rw [decimalStringToBytes, decimalStringToBytesLoop_pass (d.length + 1) d [] h0, hb]
      simp
    · rw [List.map_reverse, List.map_cons, hbv, hr, hq]
      by_cases hz : decimalValue d = 0
      · rw [if_pos hz, hz]; simp
      · rw [if_neg hz, Nat.digits_def' (by decide) (Nat.pos_of_ne_zero hz)]

/-! ## The stream transform -/

theorem tmod_natCast (n : Nat) : (n : Int).tmod 256 = ((n % 256 : Nat) : Int) :=
  (Int.ofNat_tmod n 256).symm

theorem resultByte_enc_val (dataByte keyByte : Byte) :
    (resultByte "enc".toList dataByte keyByte).val = (dataByte.val + keyByte.val) % 256 := by
  have h : (dataByte.val : Int) + keyByte.val = ((dataByte.val + keyByte.val : Nat) : Int) := by
    push_cast; rfl
  simp only [resultByte, if_true]
  rw [h, tmod_natCast]
  exact toByte_natCast _ (Nat.mod_lt _ (by decide))

theorem resultByte_dec_val (mode : List Char) (hm : mode ≠ "enc".toList)
    (dataByte keyByte : Byte) :
    (resultByte mode dataByte keyByte).val = (256 + dataByte.val - keyByte.val) % 256 := by
  have hk := keyByte.isLt
  have h : (256 : Int) + dataByte.val - keyByte.val
      = ((256 + dataByte.val - keyByte.val : Nat) : Int) := by
    omega
  simp only [resultByte, if_neg hm]
  rw [h, tmod_natCast]
  exact toByte_natCast _ (Nat.mod_lt _ (by decide))

theorem resultByte_dec_enc (mode : List Char) (hm : mode ≠ "enc".toList)
    (dataByte keyByte : Byte) :
    resultByte mode (resultByte "enc".toList dataByte keyByte) keyByte = dataByte := by
  apply Fin.ext
  rw [resultByte_dec_val mode hm, resultByte_enc_val]
  have := dataByte.isLt
  have := keyByte.isLt
  omega

theorem resultByte_enc_dec (mode : List Char) (hm : mode ≠ "enc".toList)
    (dataByte keyByte : Byte) :
    resultByte "enc".toList (resultByte mode dataByte keyByte) keyByte = dataByte := by
  apply Fin.ext
  rw [resultByte_enc_val, resultByte_dec_val mode hm]
  have := dataByte.isLt
  have := keyByte.isLt
  omega

theorem key_lookup (key : List Byte) (hk : key ≠ []) (i : Nat) :
    key[i % key.length]? = some (keyAt key i) := by
  have hlt : i % key.length < key.length := Nat.mod_lt _ (List.length_pos.2 hk)
  simp [keyAt, List.getD, List.getElem?_eq_getElem hlt]

theorem forLoop_spec (key : List Byte) (mode : List Char) (hk : key ≠ [])
    (buffer : List Byte) :
    ∀ offset : Nat, forLoop key mode buffer (offset % key.length)
      = .done (stream key mode offset buffer, (offset + buffer.length) % key.length) := by
  have hlen : key.length ≠ 0 := fun h => hk (List.length_eq_zero.1 h)
  induction buffer with
  | nil => intro offset; simp [forLoop, stream]
  | cons b rest ih =>
    intro offset
    have hnext : (offset % key.length + 1) % key.length = (offset + 1) % key.length :=
      Nat.mod_add_mod _ _ _
    rw [forLoop, key_lookup key hk offset]
    simp only [hlen, if_false]
    rw [hnext, ih (offset + 1)]
    have : offset + 1 + rest.length = offset + (rest.length + 1) := by omega
    simp only [stream, List.length_cons, this]

theorem chunkBody_spec (key : List Byte) (mode : List Char) (hk : key ≠ []) (step : Nat)
    (buffer : List Byte) :
    chunkBody key mode step buffer = .done (stream key mode step buffer, step + buffer.length) := by
  have hlen : key.length ≠ 0 := fun h => hk (List.length_eq_zero.1 h)
  simp only [chunkBody, hlen, if_false, forLoop_spec key mode hk buffer step]

theorem stream_append (key : List Byte) (mode : List Char) (a b : List Byte) :
    ∀ offset : Nat, stream key mode offset (a ++ b)
      = stream key mode offset a ++ stream key mode (offset + a.length) b := by
  induction a with
  | nil => intro offset; simp [stream]
  | cons x a ih =>
    intro offset
    have : offset + 1 + a.length = offset + (a.length + 1) := by omega
    rw [List.cons_append, stream, stream, ih (offset + 1), List.length_cons, this,
      List.cons_append]

theorem stream_length (key : List Byte) (mode : List Char) (input : List Byte) :
    ∀ offset : Nat, (stream key mode offset input).length = input.length := by
  induction input with
  | nil => intro offset; simp [stream]
  | cons x a ih => intro offset; simp [stream, ih (offset + 1)]

theorem stream_getElem? (key : List Byte) (mode : List Char) (input : List Byte) :
    ∀ (offset i : Nat), (stream key mode offset input)[i]?
      = input[i]?.map fun x => resultByte mode x (keyAt key (offset + i)) := by
  induction input with
  | nil => intro offset i; simp [stream]
  | cons x a ih =>
    intro offset i
    cases i with
    | zero => simp [stream]
    | succ i =>
      simp only [stream, List.getElem?_cons_succ, ih (offset + 1) i]
      have : offset + 1 + i = offset + (i + 1) := by omega
      rw [this]

theorem stream_dec_enc (key : List Byte) (mode : List Char) (hm : mode ≠ "enc".toList)
    (input : List Byte) :
    ∀ offset : Nat, stream key mode offset (stream key "enc".toList offset input) = input := by
  induction input with
  | nil => intro offset; simp [stream]
  | cons x a ih =>
    intro offset
    simp only [stream, ih (offset + 1), resultByte_dec_enc mode hm]

theorem stream_enc_dec (key : List Byte) (mode : List Char) (hm : mode ≠ "enc".toList)
    (input : List Byte) :
    ∀ offset : Nat, stream key "enc".toList offset (stream key mode offset input) = input := by
  induction input with
  | nil => intro offset; simp [stream]
  | cons x a ih =>
    intro offset
    simp only [stream, ih (offset + 1), resultByte_enc_dec mode hm]

theorem processChunks_spec (key : List Byte) (mode : List Char) (hk : key ≠ [])
    (chunks : List (List Byte)) :
    ∀ step : Nat, processChunks key mode chunks step
      = .done (stream key mode step chunks.flatten) := by
  induction chunks with
  | nil => intro step; simp [processChunks, stream]
  | cons c rest ih =>
    intro step
    simp only [processChunks, chunkBody_spec key mode hk, ih, List.flatten_cons, stream_append]

theorem whileLoop_spec (bufferSize : Nat) (hB : 0 < bufferSize) (key : List Byte)
    (mode : List Char) (hk : key ≠ []) (fuel : Nat) :
    ∀ (inFile : List Byte) (step : Nat) (outFile : List Byte), inFile.length + 1 ≤ fuel →
      whileLoop bufferSize key mode fuel inFile step outFile
        = .done (outFile ++ stream key mode step inFile) := by
  induction fuel with
  | zero => intro inFile step outFile h; omega
  | succ fuel ih =>
    intro inFile step outFile hf
    rw [whileLoop]
    simp only [chunkBody_spec key mode hk]
    by_cases h0 : (List.take bufferSize inFile).length ≤ 0
    · rw [if_pos h0]
      have : inFile = [] := by
        rw [List.length_take] at h0
        apply List.length_eq_zero.1
        omega
      subst this
      simp [stream]
    · rw [if_neg h0]
      by_cases hshort : (List.take bufferSize inFile).length < bufferSize
      · rw [if_pos hshort]
        have : List.take bufferSize inFile = inFile := by
          apply List.take_of_length_le
          rw [List.length_take] at hshort
          omega
        rw [this]
      · rw [if_neg hshort]
        have hlen : (List.drop bufferSize inFile).length + 1 ≤ fuel := by
          rw [List.length_take] at h0 hshort
          rw [List.length_drop]; omega
        rw [ih _ _ _ hlen, List.append_assoc, ← stream_append, List.take_append_drop]

theorem transcode_spec (key : List Byte) (mode : List Char) (hk : key ≠ [])
    (input : List Byte) : transcode key mode input = .done (stream key mode 0 input) := by
  rw [transcode, whileLoop_spec BUFFER_SIZE (by decide) key mode hk _ input 0 [] (le_refl _)]
  simp

/-! ## Byte sequences as numbers -/

theorem bigEndianValue_cons (x : Byte) (xs : List Byte) :
    bigEndianValue (x :: xs) = x.val * 256 ^ xs.length + bigEndianValue xs := by
  unfold bigEndianValue
  simp only [List.length_cons]
  rw [Fin.sum_univ_succ]
  simp only [List.get_eq_getElem, Fin.val_zero, List.getElem_cons_zero, Nat.add_sub_cancel,
    Nat.sub_zero, Fin.val_succ, List.getElem_cons_succ]
  congr 1
  refine Finset.sum_congr rfl (fun i _ => ?_)
  have : xs.length - (i.val + 1) = xs.length - 1 - i.val := by omega
  rw [this]

theorem bigEndianValue_eq_ofDigits (b : List Byte) :
    bigEndianValue b = Nat.ofDigits 256 (b.map Fin.val).reverse := by
  induction b with
  | nil => simp [bigEndianValue]
  | cons x xs ih =>
    rw [bigEndianValue_cons, ih, List.map_cons, List.reverse_cons, Nat.ofDigits_append,
      Nat.ofDigits_singleton, List.length_reverse, List.length_map]
    ring

/-! ## The key check of `main` -/

theorem contains_digits_iff (c : Char) : "0123456789".toList.contains c = true ↔ IsDigit c := by
  constructor
  · intro h
    have hm : c ∈ "0123456789".toList := by simpa using h
    have hl : "0123456789".toList = ['0', '1', '2', '3', '4', '5', '6', '7', '8', '9'] := by
      decide
    rw [hl] at hm
    simp only [List.mem_cons, List.mem_singleton, List.not_mem_nil, or_false] at hm
    rcases hm with h | h | h | h | h | h | h | h | h | h <;> subst h <;> decide
  · intro h
    have h48 : 48 ≤ c.toNat := by have := h.1; rwa [zero_toNat] at this
    have h57 : c.toNat ≤ 57 := by have := h.2; rwa [nine_toNat] at this
    have hc : c = Char.ofNat c.toNat := (Char.ofNat_toNat c).symm
    generalize c.toNat = n at h48 h57 hc
    subst hc
    interval_cases n <;> decide

theorem hasNonDigit_eq_false_iff (s : List Char) : hasNonDigit s = false ↔ IsDigitString s := by
  unfold hasNonDigit IsDigitString
  rw [List.any_eq_false]
  constructor
  · intro h c hc
    have := h c hc
    rw [← contains_digits_iff]
    generalize "0123456789".toList.contains c = b at this ⊢
    cases b
    · exact absurd this (by decide)
    · rfl
  · intro h c hc
    rw [(contains_digits_iff c).2 (h c hc)]
    decide

theorem keyCheck_eq_true_iff (s : List Char) :
    (s.isEmpty || hasNonDigit s) = true ↔ (s = [] ∨ ∃ c ∈ s, ¬ IsDigit c) := by
  have h := hasNonDigit_eq_false_iff s
  constructor
  · intro hs
    rw [Bool.or_eq_true] at hs
    rcases hs with h1 | h1
    · exact Or.inl (List.isEmpty_iff.1 h1)
    · right
      by_contra hcon
      push_neg at hcon
      rw [h.2 hcon] at h1
      exact Bool.false_ne_true h1
  · rintro (h1 | ⟨c, hc, hnd⟩)
    · simp [h1]
    · have : hasNonDigit s = true := by
        by_contra hcon
        exact hnd (h.1 (by simpa using hcon) c hc)
      simp [this]

theorem mainLoop_spec (writable : List Char → Bool) (key : List Byte) (mode : List Char)
    (hk : key ≠ []) (entries : List DirEntry) :
    ∃ events : List Event, mainLoop writable key mode entries = .done events
      ∧ ∀ e ∈ events, ∃ filename effect, e = Event.processFile filename key mode effect := by
  induction entries with
  | nil => exact ⟨[], rfl, fun e he => absurd he (List.not_mem_nil _)⟩
  | cons entry rest ih =>
    obtain ⟨events, he, hall⟩ := ih
    rw [mainLoop]
    by_cases h1 : (!entry.isRegularFile) = true
    · rw [if_pos h1]; exact ⟨events, he, hall⟩
    · rw [if_neg h1]
      by_cases h2 : entry.filename = ".".toList ∨ entry.filename = "..".toList
      · rw [if_pos h2]; exact ⟨events, he, hall⟩
      · rw [if_neg h2]
        have hp : ∃ effect, processFile entry.filename entry.contents writable key mode
            = .done effect := by
          unfold processFile
          cases entry.contents with
          | none => exact ⟨_, rfl⟩
          | some input =>
            simp only
            cases outputName entry.filename mode with
            | none => exact ⟨_, rfl⟩
            | some name =>
              simp only
              by_cases hw : (!writable name) = true
              · rw [if_pos hw]; exact ⟨_, rfl⟩
              · rw [if_neg hw, transcode_spec key mode hk]; exact ⟨_, rfl⟩
        obtain ⟨effect, hp⟩ := hp
        rw [hp, he]
        refine ⟨_, rfl, ?_⟩
        intro e hmem
        rcases List.mem_cons.1 hmem with h | h
        · exact ⟨_, _, h⟩
        · exact hall e h

/-! ## The three ways `main` can go -/

theorem main_invalidMode (mode keyInputStr : List Char) (inputDir : Option (List DirEntry))
    (writable : List Char → Bool) (hm : mode ≠ "enc".toList ∧ mode ≠ "dec".toList) :
    main mode keyInputStr inputDir writable = .done (1, [.getline mode, .invalidMode]) := by
  rw [main, if_pos hm]

theorem main_invalidKey (mode keyInputStr : List Char) (inputDir : Option (List DirEntry))
    (writable : List Char → Bool) (hm : mode = "enc".toList ∨ mode = "dec".toList)
    (hkey : keyInputStr = [] ∨ ∃ c ∈ keyInputStr, ¬ IsDigit c) :
    main mode keyInputStr inputDir writable
      = .done (1, [.getline mode, .getline keyInputStr, .invalidKey]) := by
  have hm1 : ¬ (mode ≠ "enc".toList ∧ mode ≠ "dec".toList) := by
    rintro ⟨h1, h2⟩
    rcases hm with h | h
    · exact h1 h
    · exact h2 h
  rw [main, if_neg hm1, if_pos ((keyCheck_eq_true_iff keyInputStr).2 hkey)]

theorem decimalStringToBytes_nonempty (d : List Char) (hd : IsDigitString d) :
    ∃ b : List Byte, decimalStringToBytes d = some b ∧ b ≠ [] := by
  obtain ⟨b, hb, hv⟩ := decimalStringToBytes_spec d hd
  refine ⟨b, hb, ?_⟩
  intro h
  rw [h, List.map_nil] at hv
  by_cases hz : decimalValue d = 0
  · rw [if_pos hz] at hv; exact absurd hv (by simp)
  · rw [if_neg hz] at hv
    have := (Nat.digits_ne_nil_iff_ne_zero (b := 256)).2 hz
    exact this (List.reverse_eq_nil_iff.1 hv.symm)

theorem main_validKey (mode keyInputStr : List Char) (inputDir : Option (List DirEntry))
    (writable : List Char → Bool) (hm : mode = "enc".toList ∨ mode = "dec".toList)
    (hne : keyInputStr ≠ []) (hd : IsDigitString keyInputStr) :
    ∃ (key : List Byte) (status : Nat) (events : List Event),
      decimalStringToBytes keyInputStr = some key ∧ key ≠ []
      ∧ main mode keyInputStr inputDir writable
          = .done (status, [.getline mode, .getline keyInputStr,
              .decimalStringToBytes keyInputStr] ++ events)
      ∧ ∀ e ∈ events, e = Event.noInputDir
          ∨ ∃ filename effect, e = Event.processFile filename key mode effect := by
  have hm1 : ¬ (mode ≠ "enc".toList ∧ mode ≠ "dec".toList) := by
    rintro ⟨h1, h2⟩
    rcases hm with h | h
    · exact h1 h
    · exact h2 h
  have hcheck : ¬ ((keyInputStr.isEmpty || hasNonDigit keyInputStr) = true) := by
    rw [keyCheck_eq_true_iff]
    rintro (h | ⟨c, hc, hnd⟩)
    · exact hne h
    · exact hnd (hd c hc)
  obtain ⟨key, hkey, hk⟩ := decimalStringToBytes_nonempty keyInputStr hd
  rw [main, if_neg hm1, if_neg hcheck, hkey]
  cases inputDir with
  | none =>
    refine ⟨key, 1, [.noInputDir], rfl, hk, rfl, ?_⟩
    intro e he
    exact Or.inl (List.mem_singleton.1 he)
  | some entries =>
    obtain ⟨events, he, hall⟩ := mainLoop_spec writable key mode hk entries
    refine ⟨key, 0, events, rfl, hk, ?_, fun e h => Or.inr (hall e h)⟩
    simp only [he]

/-! ## The claims -/

/-- C1, round trip: for every non-empty key and every byte sequence `M`, the transform of
`processFile` in mode `"enc"` returns some `C`, and the transform in mode `"dec"` with the
same key, again from step 0, returns exactly `M` on `C`. -/
theorem transcode_roundtrip (key M : List Byte) (hk : key ≠ []) :
    ∃ C : List Byte, transcode key "enc".toList M = .done C
      ∧ transcode key "dec".toList C = .done M := by
  refine ⟨stream key "enc".toList 0 M, transcode_spec key _ hk M, ?_⟩
  rw [transcode_spec key _ hk, stream_dec_enc key "dec".toList (by decide) M 0]

/-- Witness of C1: key `[1, 2, 3]` on the four bytes `255, 0, 7, 9`. -/
theorem transcode_roundtrip_witness :
    ([1, 2, 3] : List Byte) ≠ []
      ∧ ∃ C : List Byte, transcode [1, 2, 3] "enc".toList [255, 0, 7, 9] = .done C
        ∧ transcode [1, 2, 3] "dec".toList C = .done [255, 0, 7, 9] :=
  ⟨by decide, transcode_roundtrip [1, 2, 3] [255, 0, 7, 9] (by decide)⟩

/-- C2, value of the derived key: for every non-empty string `d` of decimal digits, leading
zeros allowed, `decimalStringToBytes d` returns a byte sequence whose big-endian base-256
value is the number `d` denotes in base 10. -/
theorem decimalStringToBytes_value (d : List Char) (hne : d ≠ []) (hd : IsDigitString d) :
    ∃ b : List Byte, decimalStringToBytes d = some b ∧ bigEndianValue b = decimalValue d := by
  obtain ⟨b, hb, hv⟩ := decimalStringToBytes_spec d hd
  refine ⟨b, hb, ?_⟩
  rw [bigEndianValue_eq_ofDigits, hv]
  by_cases hz : decimalValue d = 0
  · rw [if_pos hz, hz]; simp
  · rw [if_neg hz, List.reverse_reverse, Nat.ofDigits_digits]

/-- Witness of C2: the key `"0065536"`. -/
theorem decimalStringToBytes_value_witness :
    "0065536".toList ≠ [] ∧ IsDigitString "0065536".toList
      ∧ ∃ b : List Byte, decimalStringToBytes "0065536".toList = some b
        ∧ bigEndianValue b = decimalValue "0065536".toList :=
  ⟨by decide, by decide, decimalStringToBytes_value "0065536".toList (by decide) (by decide)⟩

/-- C3, chunk independence: for every non-empty key, either mode, every byte sequence `M`
and every split of `M` into consecutive chunks, the buffer loop run chunk by chunk from
step 0 writes the same bytes as the loop run on `M` as one chunk; so does the `while` loop
of `processFile` for every buffer size above zero. -/
theorem chunking_independent (key : List Byte) (mode : List Char) (M : List Byte)
    (chunks : List (List Byte)) (bufferSize : Nat) (hk : key ≠ [])
    (hm : mode = "enc".toList ∨ mode = "dec".toList) (hsplit : chunks.flatten = M)
    (hB : 0 < bufferSize) :
    ∃ out : List Byte, processChunks key mode [M] 0 = .done out
      ∧ processChunks key mode chunks 0 = .done out
      ∧ whileLoop bufferSize key mode (M.length + 1) M 0 [] = .done out := by
  refine ⟨stream key mode 0 M, ?_, ?_, ?_⟩
  · rw [processChunks_spec key mode hk]; simp
  · rw [processChunks_spec key mode hk, hsplit]
  · rw [whileLoop_spec bufferSize hB key mode hk _ M 0 [] (le_refl _)]; simp

/-- Witness of C3: a key of length 3, seven bytes split as 2 + 0 + 4 + 1, buffer size 2. -/
theorem chunking_independent_witness :
    ([9, 200, 31] : List Byte) ≠ []
      ∧ ("dec".toList = "enc".toList ∨ "dec".toList = "dec".toList)
      ∧ ([[1, 2], [], [3, 4, 5, 6], [7]] : List (List Byte)).flatten = [1, 2, 3, 4, 5, 6, 7]
      ∧ 0 < 2
      ∧ ∃ out : List Byte,
          processChunks [9, 200, 31] "dec".toList [[1, 2, 3, 4, 5, 6, 7]] 0 = .done out
          ∧ processChunks [9, 200, 31] "dec".toList [[1, 2], [], [3, 4, 5, 6], [7]] 0 = .done out
          ∧ whileLoop 2 [9, 200, 31] "dec".toList 8 [1, 2, 3, 4, 5, 6, 7] 0 [] = .done out :=
  ⟨by decide, by decide, by decide, by decide,
    chunking_independent [9, 200, 31] "dec".toList [1, 2, 3, 4, 5, 6, 7]
      [[1, 2], [], [3, 4, 5, 6], [7]] 2 (by decide) (by decide) (by decide) (by decide)⟩

/-- C4, per-byte transform: for every non-empty key, every input and every index `i` inside
the input, the transform of `processFile` returns in both modes, and byte `i` of the output
is `(input[i] + key[i mod keyLength]) mod 256` in mode `"enc"` and
`(input[i] - key[i mod keyLength] + 256) mod 256` in mode `"dec"`. -/
theorem transcode_per_byte (key input : List Byte) (i : Nat) (hk : key ≠ [])
    (hi : i < input.length) :
    ∃ e d : List Byte, transcode key "enc".toList input = .done e
      ∧ transcode key "dec".toList input = .done d
      ∧ e[i]?.map (fun x => x.val)
          = some (((input.get ⟨i, hi⟩).val
              + (key.get ⟨i % key.length, Nat.mod_lt i (List.length_pos.2 hk)⟩).val) % 256)
      ∧ d[i]?.map (fun x => (x.val : Int))
          = some ((((input.get ⟨i, hi⟩).val : Int)
              - (key.get ⟨i % key.length, Nat.mod_lt i (List.length_pos.2 hk)⟩).val + 256)
                % 256) := by
  have hkey : keyAt key (0 + i)
      = key.get ⟨i % key.length, Nat.mod_lt i (List.length_pos.2 hk)⟩ := by
    have hlt : i % key.length < key.length := Nat.mod_lt i (List.length_pos.2 hk)
    simp [keyAt, List.getD, List.getElem?_eq_getElem hlt]
  refine ⟨_, _, transcode_spec key _ hk input, transcode_spec key _ hk input, ?_, ?_⟩
  · rw [stream_getElem?, List.getElem?_eq_getElem hi, hkey]
    simp only [Option.map_some', List.get_eq_getElem, resultByte_enc_val]
  · rw [stream_getElem?, List.getElem?_eq_getElem hi, hkey]
    simp only [Option.map_some', List.get_eq_getElem,
      resultByte_dec_val "dec".toList (by decide)]
    have h2 := (key.get ⟨i % key.length, Nat.mod_lt i (List.length_pos.2 hk)⟩).isLt
    rw [List.get_eq_getElem] at h2
    congr 1
    omega

/-- Witness of C4: key `[3, 250]`, input `[10, 20, 30]`, index 2. -/
theorem transcode_per_byte_witness :
    ([3, 250] : List Byte) ≠ [] ∧ 2 < ([10, 20, 30] : List Byte).length
      ∧ ∃ e d : List Byte, transcode [3, 250] "enc".toList [10, 20, 30] = .done e
        ∧ transcode [3, 250] "dec".toList [10, 20, 30] = .done d
        ∧ e[2]?.map (fun x => x.val)
            = some (((([10, 20, 30] : List Byte).get ⟨2, by decide⟩).val
                + (([3, 250] : List Byte).get ⟨2 % ([3, 250] : List Byte).length,
                    by decide⟩).val) % 256)
        ∧ d[2]?.map (fun x => (x.val : Int))
            = some ((((([10, 20, 30] : List Byte).get ⟨2, by decide⟩).val : Int)
                - (([3, 250] : List Byte).get ⟨2 % ([3, 250] : List Byte).length,
                    by decide⟩).val + 256) % 256) :=
  ⟨by decide, by decide, transcode_per_byte [3, 250] [10, 20, 30] 2 (by decide) (by decide)⟩

/-- C5, minimality: for every non-empty string `d` of decimal digits, leading zeros
allowed, `decimalStringToBytes d` returns a non-empty byte sequence whose first byte is not
zero unless the sequence is exactly `[0]`. -/
theorem decimalStringToBytes_minimal (d : List Char) (hne : d ≠ []) (hd : IsDigitString d) :
    ∃ (x : Byte) (rest : List Byte), decimalStringToBytes d = some (x :: rest)
      ∧ (x :: rest ≠ [0] → x ≠ 0) := by
  obtain ⟨b, hb, hv⟩ := decimalStringToBytes_spec d hd
  cases b with
  | nil =>
    obtain ⟨b1, hb1, hn⟩ := decimalStringToBytes_nonempty d hd
    rw [hb] at hb1
    exact absurd (Option.some.inj hb1).symm hn
  | cons x rest =>
    refine ⟨x, rest, hb, ?_⟩
    intro hne0 hx
    by_cases hz : decimalValue d = 0
    · rw [if_pos hz, List.map_cons] at hv
      have hr : rest = [] := by
        have := (List.cons.inj hv).2
        exact List.map_eq_nil_iff.1 this
      exact hne0 (by rw [hx, hr])
    · rw [if_neg hz] at hv
      have hdig : Nat.digits 256 (decimalValue d) = (rest.map Fin.val).reverse ++ [x.val] := by
        have := congrArg List.reverse hv
        rw [List.reverse_reverse, List.map_cons, List.reverse_cons] at this
        exact this.symm
      have hlast := Nat.getLast_digit_ne_zero 256 hz
      simp only [hdig, List.getLast_append_singleton] at hlast
      exact hlast (by rw [hx]; rfl)

/-- Witness of C5: the key `"000256"`. -/
theorem decimalStringToBytes_minimal_witness :
    "000256".toList ≠ [] ∧ IsDigitString "000256".toList
      ∧ ∃ (x : Byte) (rest : List Byte), decimalStringToBytes "000256".toList = some (x :: rest)
        ∧ (x :: rest ≠ [0] → x ≠ 0) :=
  ⟨by decide, by decide, decimalStringToBytes_minimal "000256".toList (by decide) (by decide)⟩

/-- C6, derivation examples: `"0"` gives `[0]`, `"255"` gives `[255]`, `"256"` gives
`[1, 0]`, `"65535"` gives `[255, 255]` and `"65536"` gives `[1, 0, 0]`. -/
theorem decimalStringToBytes_examples :
    decimalStringToBytes "0".toList = some [0]
      ∧ decimalStringToBytes "255".toList = some [255]
      ∧ decimalStringToBytes "256".toList = some [1, 0]
      ∧ decimalStringToBytes "65535".toList = some [255, 255]
      ∧ decimalStringToBytes "65536".toList = some [1, 0, 0] := by
  refine ⟨?_, ?_, ?_, ?_, ?_⟩ <;> decide

/-- C7, derived keys are never empty: for every string `d` of decimal digits
`decimalStringToBytes d` returns a sequence of length at least 1; and every run of `main`
ends without a division by zero, each key it hands to `processFile` having length at least
1. -/
theorem derived_key_nonempty (d mode keyInputStr : List Char)
    (inputDir : Option (List DirEntry)) (writable : List Char → Bool)
    (hd : IsDigitString d) :
    (∃ b : List Byte, decimalStringToBytes d = some b ∧ 1 ≤ b.length)
      ∧ ∃ (status : Nat) (events : List Event),
          main mode keyInputStr inputDir writable = .done (status, events)
          ∧ ∀ filename key mode1 effect,
              Event.processFile filename key mode1 effect ∈ events → 1 ≤ key.length := by
  constructor
  · obtain ⟨b, hb, hn⟩ := decimalStringToBytes_nonempty d hd
    exact ⟨b, hb, List.length_pos.2 hn⟩
  · by_cases hm : mode = "enc".toList ∨ mode = "dec".toList
    · by_cases hkey : keyInputStr = [] ∨ ∃ c ∈ keyInputStr, ¬ IsDigit c
      · refine ⟨1, _, main_invalidKey mode keyInputStr inputDir writable hm hkey, ?_⟩
        intro filename key mode1 effect hmem
        simp at hmem
      · have hne : keyInputStr ≠ [] := fun h => hkey (Or.inl h)
        have hdig : IsDigitString keyInputStr := by
          intro c hc
          by_contra hnd
          exact hkey (Or.inr ⟨c, hc, hnd⟩)
        obtain ⟨key, status, events, _, hk, hmain, hall⟩ :=
          main_validKey mode keyInputStr inputDir writable hm hne hdig
        refine ⟨status, _, hmain, ?_⟩
        intro filename key1 mode1 effect hmem
        rcases List.mem_append.1 hmem with h | h
        · simp at h
        · rcases hall _ h with h1 | ⟨f, eff, h1⟩
          · exact absurd h1 (by simp)
          · have : key1 = key := by injection h1
            rw [this]; exact List.length_pos.2 hk
    · have hm1 : mode ≠ "enc".toList ∧ mode ≠ "dec".toList :=
        ⟨fun h => hm (Or.inl h), fun h => hm (Or.inr h)⟩
      refine ⟨1, _, main_invalidMode mode keyInputStr inputDir writable hm1, ?_⟩
      intro filename key mode1 effect hmem
      simp at hmem

/-- Witness of C7: the digit string `"255"`, and a run of `main` in mode `"enc"` with the key
`"256"` over a directory of one file. -/
theorem derived_key_nonempty_witness :
    IsDigitString "255".toList
      ∧ ((∃ b : List Byte, decimalStringToBytes "255".toList = some b ∧ 1 ≤ b.length)
        ∧ ∃ (status : Nat) (events : List Event),
            main "enc".toList "256".toList (some [⟨"a".toList, true, some [1, 2, 3]⟩])
                (fun _ => true) = .done (status, events)
            ∧ ∀ filename key mode1 effect,
                Event.processFile filename key mode1 effect ∈ events → 1 ≤ key.length) :=
  ⟨by decide, derived_key_nonempty "255".toList "enc".toList "256".toList
    (some [⟨"a".toList, true, some [1, 2, 3]⟩]) (fun _ => true) (by decide)⟩

/-- C8, length preservation: for every non-empty key, either mode, every input, every split
of the input into chunks and every buffer size above zero, the transform of `processFile`
returns an output of exactly the length of the input, the same output as the loop run over
the chunks and as the `while` loop with that buffer size; an input of no byte gives an output
of no byte. -/
theorem transcode_length (key : List Byte) (mode : List Char) (input : List Byte)
    (chunks : List (List Byte)) (bufferSize : Nat) (hk : key ≠ [])
    (hm : mode = "enc".toList ∨ mode = "dec".toList) (hsplit : chunks.flatten = input)
    (hB : 0 < bufferSize) :
    (∃ out : List Byte, transcode key mode input = .done out
        ∧ out.length = input.length
        ∧ processChunks key mode chunks 0 = .done out
        ∧ whileLoop bufferSize key mode (input.length + 1) input 0 [] = .done out)
      ∧ transcode key mode [] = .done [] := by
  refine ⟨⟨stream key mode 0 input, transcode_spec key mode hk input,
    stream_length key mode input 0, ?_, ?_⟩, ?_⟩
  · rw [processChunks_spec key mode hk, hsplit]
  · rw [whileLoop_spec bufferSize hB key mode hk _ input 0 [] (le_refl _)]; simp
  · rw [transcode_spec key mode hk]; rfl

/-- Witness of C8: a key of length 2 on five bytes split as 3 + 2, buffer size 4. -/
theorem transcode_length_witness :
    ([7, 250] : List Byte) ≠ []
      ∧ ("enc".toList = "enc".toList ∨ "enc".toList = "dec".toList)
      ∧ ([[10, 20, 30], [40, 50]] : List (List Byte)).flatten = [10, 20, 30, 40, 50]
      ∧ 0 < 4
      ∧ ((∃ out : List Byte, transcode [7, 250] "enc".toList [10, 20, 30, 40, 50] = .done out
          ∧ out.length = ([10, 20, 30, 40, 50] : List Byte).length
          ∧ processChunks [7, 250] "enc".toList [[10, 20, 30], [40, 50]] 0 = .done out
          ∧ whileLoop 4 [7, 250] "enc".toList
              (([10, 20, 30, 40, 50] : List Byte).length + 1) [10, 20, 30, 40, 50] 0 []
                = .done out)
        ∧ transcode [7, 250] "enc".toList [] = .done []) :=
  ⟨by decide, by decide, by decide, by decide,
    transcode_length [7, 250] "enc".toList [10, 20, 30, 40, 50] [[10, 20, 30], [40, 50]] 4
      (by decide) (by decide) (by decide) (by decide)⟩

/-- C9 as stated fails: `decimalStringToBytes` checks nothing.  On the empty string it
returns the key `[0]`, on `"12a"` the key `[169]` and on `"-5"` the key `[231]`. -/
theorem decimalStringToBytes_unchecked :
    ("".toList = [] ∨ ∃ c ∈ "".toList, ¬ IsDigit c)
      ∧ decimalStringToBytes "".toList = some [0]
      ∧ ("12a".toList = [] ∨ ∃ c ∈ "12a".toList, ¬ IsDigit c)
      ∧ decimalStringToBytes "12a".toList = some [169]
      ∧ ("-5".toList = [] ∨ ∃ c ∈ "-5".toList, ¬ IsDigit c)
      ∧ decimalStringToBytes "-5".toList = some [231] := by
  refine ⟨?_, ?_, ?_, ?_, ?_, ?_⟩ <;> decide

/-- C9 as amended: the failure for a key string that is empty or holds a character outside
`'0'..'9'` is raised by `main` ahead of `decimalStringToBytes`: with a valid mode the run
ends with status 1 right after the key line is read, no key derived. -/
theorem invalidKey_raised_by_main (mode keyInputStr : List Char)
    (inputDir : Option (List DirEntry)) (writable : List Char → Bool)
    (hm : mode = "enc".toList ∨ mode = "dec".toList)
    (hkey : keyInputStr = [] ∨ ∃ c ∈ keyInputStr, ¬ IsDigit c) :
    main mode keyInputStr inputDir writable
      = .done (1, [.getline mode, .getline keyInputStr, .invalidKey]) :=
  main_invalidKey mode keyInputStr inputDir writable hm hkey

/-- Witness of C9 as amended: mode `"dec"` with the key `"12a"`. -/
theorem invalidKey_raised_by_main_witness :
    ("dec".toList = "enc".toList ∨ "dec".toList = "dec".toList)
      ∧ ("12a".toList = [] ∨ ∃ c ∈ "12a".toList, ¬ IsDigit c)
      ∧ main "dec".toList "12a".toList (some [⟨"a.enc".toList, true, some [1, 2, 3]⟩])
          (fun _ => true)
        = .done (1, [.getline "dec".toList, .getline "12a".toList, .invalidKey]) :=
  ⟨by decide, by decide,
    invalidKey_raised_by_main "dec".toList "12a".toList
      (some [⟨"a.enc".toList, true, some [1, 2, 3]⟩]) (fun _ => true) (by decide) (by decide)⟩

/-- C10, key validation in `main`: with a valid mode, a run is refused (exit status 1 with
`decimalStringToBytes` not called and no file processed) exactly when the key string is
empty or holds a character outside `'0'..'9'`; the keys `""`, `"12a"` and `"-5"` are
refused. -/
theorem main_key_validation (mode keyInputStr : List Char)
    (inputDir : Option (List DirEntry)) (writable : List Char → Bool)
    (hm : mode = "enc".toList ∨ mode = "dec".toList) :
    ((∃ events : List Event, main mode keyInputStr inputDir writable = .done (1, events)
          ∧ (∀ arg, Event.decimalStringToBytes arg ∉ events)
          ∧ (∀ filename key mode1 effect, Event.processFile filename key mode1 effect ∉ events))
        ↔ (keyInputStr = [] ∨ ∃ c ∈ keyInputStr, ¬ IsDigit c))
      ∧ ∀ bad ∈ ["".toList, "12a".toList, "-5".toList],
          main mode bad inputDir writable = .done (1, [.getline mode, .getline bad, .invalidKey])
        := by
  refine ⟨⟨?_, ?_⟩, ?_⟩
  · rintro ⟨events, hmain, hno, _⟩
    by_contra hkey
    have hne : keyInputStr ≠ [] := fun h => hkey (Or.inl h)
    have hdig : IsDigitString keyInputStr := by
      intro c hc
      by_contra hnd
      exact hkey (Or.inr ⟨c, hc, hnd⟩)
    obtain ⟨key, status, events1, _, _, hmain1, _⟩ :=
      main_validKey mode keyInputStr inputDir writable hm hne hdig
    rw [hmain] at hmain1
    have he : events = [.getline mode, .getline keyInputStr,
        .decimalStringToBytes keyInputStr] ++ events1 := by
      injection hmain1 with h
      exact (Prod.mk.inj h).2
    exact hno keyInputStr (by rw [he]; simp)
  · intro hkey
    refine ⟨_, main_invalidKey mode keyInputStr inputDir writable hm hkey, ?_, ?_⟩
    · intro arg hmem; simp at hmem
    · intro filename key mode1 effect hmem; simp at hmem
  · intro bad hbad
    apply main_invalidKey mode bad inputDir writable hm
    simp only [List.mem_cons, List.mem_singleton, List.not_mem_nil, or_false] at hbad
    rcases hbad with h | h | h <;> subst h <;> decide

/-- Witness of C10: mode `"enc"` with the key `"-5"`. -/
theorem main_key_validation_witness :
    ("enc".toList = "enc".toList ∨ "enc".toList = "dec".toList)
      ∧ main "enc".toList "-5".toList none (fun _ => true)
        = .done (1, [.getline "enc".toList, .getline "-5".toList, .invalidKey]) :=
  ⟨by decide,
    (main_key_validation "enc".toList "-5".toList none (fun _ => true) (by decide)).2
      "-5".toList (by decide)⟩

theorem stream_single_key (k : Byte) (mode : List Char) (input : List Byte) :
    ∀ offset : Nat, stream [k] mode offset input = input.map fun x => resultByte mode x k := by
  induction input with
  | nil => intro offset; rfl
  | cons x rest ih =>
    intro offset
    have hk : keyAt [k] offset = k := by simp [keyAt, Nat.mod_one]
    rw [stream, ih (offset + 1), hk, List.map_cons]

theorem map_val_injective (a b : List Byte) (h : a.map Fin.val = b.map Fin.val) : a = b :=
  List.map_injective_iff.2 Fin.val_injective h

/-- C11, key length 1: for every one-byte key `[k]` the transform returns, in mode `"enc"`
every input byte `x` at every position becomes `(x + k) mod 256` and in mode `"dec"` it
becomes `(x - k) mod 256`; the key derived from `"5"` is `[5]`, with it the byte `0x00` is
encrypted to `0x05` and `0x05` is decrypted to `0x00`. -/
theorem single_byte_key_rotation (k : Byte) (input : List Byte) :
    (∃ e d : List Byte, transcode [k] "enc".toList input = .done e
        ∧ transcode [k] "dec".toList input = .done d
        ∧ e.map (fun x => x.val) = input.map (fun x => (x.val + k.val) % 256)
        ∧ d.map (fun x => (x.val : Int)) = input.map (fun x => ((x.val : Int) - k.val) % 256))
      ∧ decimalStringToBytes "5".toList = some [5]
      ∧ transcode [5] "enc".toList [0x00] = .done [0x05]
      ∧ transcode [5] "dec".toList [0x05] = .done [0x00] := by
  refine ⟨⟨_, _, transcode_spec [k] _ (by simp) input, transcode_spec [k] _ (by simp) input,
    ?_, ?_⟩, by decide, by decide, by decide⟩
  · rw [stream_single_key, List.map_map]
    apply List.map_congr_left
    intro x _
    exact resultByte_enc_val x k
  · rw [stream_single_key, List.map_map]
    apply List.map_congr_left
    intro x _
    show ((resultByte "dec".toList x k).val : Int) = ((x.val : Int) - k.val) % 256
    rw [resultByte_dec_val "dec".toList (by decide)]
    have h1 := x.isLt
    have h2 := k.isLt
    omega

/-- C12, mode validation in `main`: a run ends with status 1 right after the mode line,
the key line not read, nothing derived and no file processed, exactly when the mode is
neither `"enc"` nor `"dec"`; with one of these two modes the key line is read next. -/
theorem main_mode_validation (mode keyInputStr : List Char)
    (inputDir : Option (List DirEntry)) (writable : List Char → Bool) :
    (main mode keyInputStr inputDir writable = .done (1, [.getline mode, .invalidMode])
        ↔ (mode ≠ "enc".toList ∧ mode ≠ "dec".toList))
      ∧ ((mode = "enc".toList ∨ mode = "dec".toList) ↔
          ∃ (status : Nat) (events : List Event),
            main mode keyInputStr inputDir writable
              = .done (status, .getline mode :: .getline keyInputStr :: events)) := by
  have hvalid : (mode = "enc".toList ∨ mode = "dec".toList) →
      ∃ (status : Nat) (events : List Event),
        main mode keyInputStr inputDir writable
          = .done (status, .getline mode :: .getline keyInputStr :: events) := by
    intro hm
    by_cases hkey : keyInputStr = [] ∨ ∃ c ∈ keyInputStr, ¬ IsDigit c
    · exact ⟨1, _, main_invalidKey mode keyInputStr inputDir writable hm hkey⟩
    · have hne : keyInputStr ≠ [] := fun h => hkey (Or.inl h)
      have hdig : IsDigitString keyInputStr := by
        intro c hc
        by_contra hnd
        exact hkey (Or.inr ⟨c, hc, hnd⟩)
      obtain ⟨key, status, events, _, _, hmain, _⟩ :=
        main_validKey mode keyInputStr inputDir writable hm hne hdig
      exact ⟨status, _, hmain⟩
  have hinvalid : (mode ≠ "enc".toList ∧ mode ≠ "dec".toList) →
      main mode keyInputStr inputDir writable = .done (1, [.getline mode, .invalidMode]) :=
    main_invalidMode mode keyInputStr inputDir writable
  refine ⟨⟨?_, hinvalid⟩, ⟨hvalid, ?_⟩⟩
  · intro hmain
    by_contra hm
    have hm1 : mode = "enc".toList ∨ mode = "dec".toList := by
      by_cases h1 : mode = "enc".toList
      · exact Or.inl h1
      · by_cases h2 : mode = "dec".toList
        · exact Or.inr h2
        · exact absurd ⟨h1, h2⟩ hm
    obtain ⟨status, events, h⟩ := hvalid hm1
    rw [hmain] at h
    simp at h
  · rintro ⟨status, events, hmain⟩
    by_contra hm
    have hm1 : mode ≠ "enc".toList ∧ mode ≠ "dec".toList :=
      ⟨fun h => hm (Or.inl h), fun h => hm (Or.inr h)⟩
    rw [hinvalid hm1] at hmain
    simp at hmain

/-- C16, encrypt undoes decrypt: for every non-empty key and every byte sequence `C`, mode
`"dec"` returns some `P` of the length of `C` on which mode `"enc"` returns exactly `C`;
and mode `"enc"` returns some `Q` of the length of `C` on which mode `"dec"` returns `C`.
The two modes are inverse to each other on the byte sequences of each length. -/
theorem transcode_enc_dec (key C : List Byte) (hk : key ≠ []) :
    (∃ P : List Byte, transcode key "dec".toList C = .done P ∧ P.length = C.length
        ∧ transcode key "enc".toList P = .done C)
      ∧ ∃ Q : List Byte, transcode key "enc".toList C = .done Q ∧ Q.length = C.length
        ∧ transcode key "dec".toList Q = .done C := by
  refine ⟨⟨stream key "dec".toList 0 C, transcode_spec key _ hk C, stream_length _ _ _ _, ?_⟩,
    ⟨stream key "enc".toList 0 C, transcode_spec key _ hk C, stream_length _ _ _ _, ?_⟩⟩
  · rw [transcode_spec key _ hk, stream_enc_dec key "dec".toList (by decide) C 0]
  · rw [transcode_spec key _ hk, stream_dec_enc key "dec".toList (by decide) C 0]

/-- Witness of C16: key `[200, 100]` on the bytes `0, 99, 255`. -/
theorem transcode_enc_dec_witness :
    ([200, 100] : List Byte) ≠ []
      ∧ ((∃ P : List Byte, transcode [200, 100] "dec".toList [0, 99, 255] = .done P
          ∧ P.length = ([0, 99, 255] : List Byte).length
          ∧ transcode [200, 100] "enc".toList P = .done [0, 99, 255])
        ∧ ∃ Q : List Byte, transcode [200, 100] "enc".toList [0, 99, 255] = .done Q
          ∧ Q.length = ([0, 99, 255] : List Byte).length
          ∧ transcode [200, 100] "dec".toList Q = .done [0, 99, 255]) :=
  ⟨by decide, transcode_enc_dec [200, 100] [0, 99, 255] (by decide)⟩

/-- C17, leading zeros: for every non-empty string `d` of decimal digits,
`decimalStringToBytes` returns the same key on `"0" ++ d` as on `d`; on `"00001"` it returns
`[1]` and on `"00"` it returns `[0]`. -/
theorem decimalStringToBytes_leading_zero (d : List Char) (hne : d ≠ [])
    (hd : IsDigitString d) :
    (∃ b : List Byte, decimalStringToBytes d = some b
        ∧ decimalStringToBytes ("0".toList ++ d) = some b)
      ∧ decimalStringToBytes "00001".toList = some [1]
      ∧ decimalStringToBytes "00".toList = some [0] := by
  refine ⟨?_, by decide, by decide⟩
  have hd0 : IsDigitString ("0".toList ++ d) := by
    intro c hc
    rcases List.mem_append.1 hc with h | h
    · have : c = '0' := by simpa using h
      rw [this]; decide
    · exact hd c h
  have hval : decimalValue ("0".toList ++ d) = decimalValue d := by
    rw [zeroString, List.singleton_append, decimalValue_cons, zero_toNat]
    simp
  obtain ⟨b, hb, hv⟩ := decimalStringToBytes_spec d hd
  obtain ⟨b0, hb0, hv0⟩ := decimalStringToBytes_spec _ hd0
  rw [hval, ← hv] at hv0
  rw [map_val_injective b0 b hv0] at hb0
  exact ⟨b, hb, hb0⟩

/-- Witness of C17: the key `"1000"`. -/
theorem decimalStringToBytes_leading_zero_witness :
    "1000".toList ≠ [] ∧ IsDigitString "1000".toList
      ∧ ((∃ b : List Byte, decimalStringToBytes "1000".toList = some b
          ∧ decimalStringToBytes ("0".toList ++ "1000".toList) = some b)
        ∧ decimalStringToBytes "00001".toList = some [1]
        ∧ decimalStringToBytes "00".toList = some [0]) :=
  ⟨by decide, by decide,
    decimalStringToBytes_leading_zero "1000".toList (by decide) (by decide)⟩

/-! ## Canonical strings are unique -/

theorem decimalValue_eq_ofDigits (s : List Char) :
    decimalValue s = Nat.ofDigits 10 (s.map fun c => c.toNat - 48).reverse := by
  induction s with
  | nil => rfl
  | cons c cs ih =>
    rw [decimalValue_cons, ih, List.map_cons, List.reverse_cons, Nat.ofDigits_append,
      Nat.ofDigits_singleton, List.length_reverse, List.length_map]
    ring

theorem digits_of_noLeadingZero (s : List Char) (h : NoLeadingZero s) :
    Nat.digits 10 (decimalValue s) = (s.map fun c => c.toNat - 48).reverse := by
  rw [decimalValue_eq_ofDigits]
  apply Nat.digits_ofDigits 10 (by decide)
  · intro l hl
    rw [List.mem_reverse, List.mem_map] at hl
    obtain ⟨c, hc, rfl⟩ := hl
    have := (h.1 c hc).2
    rw [nine_toNat] at this
    omega
  · intro hne
    cases s with
    | nil => exact absurd rfl hne
    | cons c cs =>
      have hc : IsDigit c := h.1 c (List.mem_cons_self _ _)
      have h48 : 48 ≤ c.toNat := by have := hc.1; rwa [zero_toNat] at this
      have hc0 : c.toNat ≠ 48 := by
        intro h48e
        apply h.2
        have : c = Char.ofNat 48 := by rw [← h48e, Char.ofNat_toNat]
        simp [this]
      simp only [List.map_cons, List.reverse_cons, List.getLast_append_singleton]
      omega

theorem digit_map_injective (s : List Char) :
    ∀ t : List Char, IsDigitString s → IsDigitString t →
      (s.map fun c => c.toNat - 48) = (t.map fun c => c.toNat - 48) → s = t := by
  induction s with
  | nil =>
    intro t _ _ h
    cases t with
    | nil => rfl
    | cons a l => simp at h
  | cons c cs ih =>
    intro t hs ht h
    cases t with
    | nil => simp at h
    | cons a l =>
      rw [List.map_cons, List.map_cons] at h
      obtain ⟨h1, h2⟩ := List.cons.inj h
      have hc : 48 ≤ c.toNat := by
        have := (hs c (List.mem_cons_self _ _)).1; rwa [zero_toNat] at this
      have ha : 48 ≤ a.toNat := by
        have := (ht a (List.mem_cons_self _ _)).1; rwa [zero_toNat] at this
      have hca : c = a := by
        have hn : c.toNat = a.toNat := by
          have h1' : c.toNat - 48 = a.toNat - 48 := h1
          omega
        rw [← Char.ofNat_toNat c, ← Char.ofNat_toNat a, hn]
      rw [hca, ih l (fun x hx => hs x (List.mem_cons_of_mem _ hx))
        (fun x hx => ht x (List.mem_cons_of_mem _ hx)) h2]

theorem canonical_eq_zero (s : List Char) (h : Canonical s) (h0 : decimalValue s = 0) :
    s = "0".toList := by
  by_contra hne
  have := canonical_pos s h hne
  omega

theorem canonical_unique (s t : List Char) (hs : Canonical s) (ht : Canonical t)
    (h : decimalValue s = decimalValue t) : s = t := by
  by_cases hs0 : s = "0".toList
  · rw [hs0, decimalValue_zeroString] at h
    rw [hs0, canonical_eq_zero t ht h.symm]
  · by_cases ht0 : t = "0".toList
    · rw [ht0, decimalValue_zeroString] at h
      exact absurd (canonical_eq_zero s hs h) hs0
    · have hs1 : NoLeadingZero s := by
        rcases hs with h1 | h1
        · exact absurd h1 hs0
        · exact h1.2
      have ht1 : NoLeadingZero t := by
        rcases ht with h1 | h1
        · exact absurd h1 ht0
        · exact h1.2
      have e1 := digits_of_noLeadingZero s hs1
      have e2 := digits_of_noLeadingZero t ht1
      rw [h, e2] at e1
      exact digit_map_injective s t hs1.1 ht1.1 (List.reverse_injective e1).symm

/-- C13, long division step: for every non-empty string `d` of decimal digits denoting `N`,
`divmod256 d` returns the remainder `N mod 256` and a quotient string that denotes
`N / 256` and is canonical: all digits, exactly `"0"` when `N < 256` and otherwise without a
leading zero; it is the only canonical string denoting `N / 256`. -/
theorem divmod256_correct (d : List Char) (hne : d ≠ []) (hd : IsDigitString d) :
    (divmod256 d).2.val = decimalValue d % 256
      ∧ IsDigitString (divmod256 d).1
      ∧ decimalValue (divmod256 d).1 = decimalValue d / 256
      ∧ (decimalValue d < 256 → (divmod256 d).1 = "0".toList)
      ∧ (256 ≤ decimalValue d → (divmod256 d).1 ≠ [] ∧ (divmod256 d).1.head? ≠ some '0')
      ∧ ∀ s : List Char, Canonical s → decimalValue s = decimalValue d / 256 →
          s = (divmod256 d).1 := by
  obtain ⟨hr, hq, hcan, _⟩ := divmod256_spec d hd
  refine ⟨hr, canonical_isDigitString _ hcan, hq, ?_, ?_, ?_⟩
  · intro hlt
    apply canonical_eq_zero _ hcan
    rw [hq]
    exact Nat.div_eq_of_lt hlt
  · intro hge
    have hpos : 0 < decimalValue (divmod256 d).1 := by
      rw [hq]; exact Nat.div_pos hge (by decide)
    rcases hcan with h | h
    · rw [h, decimalValue_zeroString] at hpos
      exact absurd hpos (by decide)
    · exact ⟨h.1, h.2.2⟩
  · intro s hs hv
    exact canonical_unique s _ hs hcan (by rw [hv, hq])

/-- Witness of C13: the string `"0070000"`. -/
theorem divmod256_correct_witness :
    "0070000".toList ≠ [] ∧ IsDigitString "0070000".toList
      ∧ (divmod256 "0070000".toList).2.val = decimalValue "0070000".toList % 256
      ∧ IsDigitString (divmod256 "0070000".toList).1
      ∧ decimalValue (divmod256 "0070000".toList).1 = decimalValue "0070000".toList / 256
      ∧ (decimalValue "0070000".toList < 256 → (divmod256 "0070000".toList).1 = "0".toList)
      ∧ (256 ≤ decimalValue "0070000".toList →
          (divmod256 "0070000".toList).1 ≠ [] ∧ (divmod256 "0070000".toList).1.head? ≠ some '0')
      ∧ ∀ s : List Char, Canonical s →
          decimalValue s = decimalValue "0070000".toList / 256 →
          s = (divmod256 "0070000".toList).1 :=
  ⟨by decide, by decide, divmod256_correct "0070000".toList (by decide) (by decide)⟩

/-- C14, termination of the key derivation: for every string `d` of decimal digits the loop
of `decimalStringToBytes` ends, with the same bytes for every amount of fuel from
`d.size() + 2` on; after a pass over a string other than `"0"` the new string is canonical
and either is `"0"` or denotes a strictly smaller number than before. -/
theorem decimalStringToBytes_terminates (d : List Char) (hd : IsDigitString d) :
    (∃ bytes : List Byte, ∀ fuel : Nat, d.length + 2 ≤ fuel →
        decimalStringToBytesLoop fuel d [] = some bytes)
      ∧ (d ≠ "0".toList →
          Canonical (divmod256 d).1
            ∧ ((divmod256 d).1 = "0".toList
              ∨ decimalValue (divmod256 d).1 < decimalValue d)) := by
  obtain ⟨_, hq, hcan, hlen⟩ := divmod256_spec d hd
  constructor
  · by_cases h0 : d = "0".toList
    · refine ⟨[], ?_⟩
      intro fuel hf
      obtain ⟨n, rfl⟩ : ∃ n, fuel = n + 1 := ⟨fuel - 1, by omega⟩
      rw [decimalStringToBytesLoop, if_neg (by simpa using h0)]
    · have hfuel : ∀ n : Nat, d.length + 1 ≤ n →
          ((divmod256 d).1 = "0".toList ∧ 1 ≤ n) ∨ (divmod256 d).1.length + 2 ≤ n := by
        intro n hn
        rcases hlen with h | h
        · exact Or.inl ⟨h, by omega⟩
        · exact Or.inr (by omega)
      obtain ⟨b, _, hbv⟩ :=
        decimalStringToBytesLoop_canonical (d.length + 1) (divmod256 d).1
          ([] ++ [(divmod256 d).2]) hcan (hfuel _ (le_refl _))
      refine ⟨[] ++ [(divmod256 d).2] ++ b, ?_⟩
      intro fuel hf
      obtain ⟨n, rfl⟩ : ∃ n, fuel = n + 1 := ⟨fuel - 1, by omega⟩
      obtain ⟨b1, hb1, hbv1⟩ :=
        decimalStringToBytesLoop_canonical n (divmod256 d).1
          ([] ++ [(divmod256 d).2]) hcan (hfuel n (by omega))
      rw [decimalStringToBytesLoop_pass n d [] h0, hb1,
        map_val_injective b1 b (by rw [hbv1, hbv])]
  · intro h0
    refine ⟨hcan, ?_⟩
    by_cases hz : decimalValue d = 0
    · left
      apply canonical_eq_zero _ hcan
      rw [hq, hz]
    · right
      rw [hq]
      exact Nat.div_lt_self (Nat.pos_of_ne_zero hz) (by decide)

/-- Witness of C14: the string `"0065536"`. -/
theorem decimalStringToBytes_terminates_witness :
    IsDigitString "0065536".toList
      ∧ (∃ bytes : List Byte, ∀ fuel : Nat, "0065536".toList.length + 2 ≤ fuel →
          decimalStringToBytesLoop fuel "0065536".toList [] = some bytes)
      ∧ ("0065536".toList ≠ "0".toList →
          Canonical (divmod256 "0065536".toList).1
            ∧ ((divmod256 "0065536".toList).1 = "0".toList
              ∨ decimalValue (divmod256 "0065536".toList).1
                  < decimalValue "0065536".toList)) :=
  ⟨by decide, decimalStringToBytes_terminates "0065536".toList (by decide)⟩

theorem divmod256Loop_append (pre suf : List Char) :
    ∀ (quotient : List Char) (remainder : Int),
      divmod256Loop (pre ++ suf) quotient remainder
        = divmod256Loop suf (divmod256Loop pre quotient remainder).1
            (divmod256Loop pre quotient remainder).2 := by
  induction pre with
  | nil => intro quotient remainder; rfl
  | cons c cs ih =>
    intro quotient remainder
    simp only [List.cons_append, divmod256Loop]
    exact ih _ _

/-- C20, bounds in the long division: for every string of decimal digits cut anywhere into
what `divmod256` has read (`pre`) and what is left (`suf`), the run passes through the state
reached on `pre`, whose remainder is in `[0, 255]` and whose quotient holds digits only;
for the next digit `value = remainder * 10 + digit` is in `[0, 2559]`, `value / 256` is in
`[0, 9]`, the character `'0' + value / 256` is a digit and `value % 256` is in `[0, 255]`;
the quotient returned holds digits only and the remainder returned is in `[0, 255]`, so its
conversion to `uint8_t` keeps its value. -/
theorem divmod256_bounds (pre suf : List Char) (hd : IsDigitString (pre ++ suf)) :
    divmod256Loop (pre ++ suf) [] 0
        = divmod256Loop suf (divmod256Loop pre [] 0).1 (divmod256Loop pre [] 0).2
      ∧ (0 ≤ (divmod256Loop pre [] 0).2 ∧ (divmod256Loop pre [] 0).2 ≤ 255)
      ∧ IsDigitString (divmod256Loop pre [] 0).1
      ∧ (∀ c : Char, suf.head? = some c →
          (0 ≤ (divmod256Loop pre [] 0).2 * 10 + ((c.toNat : Int) - ('0'.toNat : Int))
            ∧ (divmod256Loop pre [] 0).2 * 10 + ((c.toNat : Int) - ('0'.toNat : Int)) ≤ 2559)
          ∧ (0 ≤ ((divmod256Loop pre [] 0).2 * 10
                + ((c.toNat : Int) - ('0'.toNat : Int))).tdiv 256
            ∧ ((divmod256Loop pre [] 0).2 * 10
                + ((c.toNat : Int) - ('0'.toNat : Int))).tdiv 256 ≤ 9)
          ∧ IsDigit (toChar (('0'.toNat : Int) + ((divmod256Loop pre [] 0).2 * 10
                + ((c.toNat : Int) - ('0'.toNat : Int))).tdiv 256))
          ∧ (0 ≤ ((divmod256Loop pre [] 0).2 * 10
                + ((c.toNat : Int) - ('0'.toNat : Int))).tmod 256
            ∧ ((divmod256Loop pre [] 0).2 * 10
                + ((c.toNat : Int) - ('0'.toNat : Int))).tmod 256 ≤ 255))
      ∧ IsDigitString (divmod256 (pre ++ suf)).1
      ∧ (0 ≤ (divmod256Loop (pre ++ suf) [] 0).2 ∧ (divmod256Loop (pre ++ suf) [] 0).2 ≤ 255)
      ∧ ((divmod256 (pre ++ suf)).2.val : Int) = (divmod256Loop (pre ++ suf) [] 0).2 := by
  have hnil : NoLeadingZero [] := ⟨fun _ h => absurd h (List.not_mem_nil _), by simp⟩
  have hpre : IsDigitString pre := fun c hc => hd c (List.mem_append_left _ hc)
  obtain ⟨q1, r1, he, hlt, hnz, _, _⟩ := divmod256Loop_spec pre [] 0 hpre hnil (by decide)
  obtain ⟨q2, r2, he2, hlt2, _, _, _⟩ :=
    divmod256Loop_spec (pre ++ suf) [] 0 hd hnil (by decide)
  rw [Nat.cast_zero] at he he2
  obtain ⟨_, _, hcan, _⟩ := divmod256_spec (pre ++ suf) hd
  refine ⟨divmod256Loop_append pre suf [] 0, ?_, ?_, ?_, canonical_isDigitString _ hcan, ?_, ?_⟩
  · rw [he]; simp only; omega
  · rw [he]; exact hnz.1
  · intro c hc
    have hmem : c ∈ suf := by
      cases suf with
      | nil => simp at hc
      | cons a l =>
        have : a = c := by simpa using hc
        rw [this]; exact List.mem_cons_self _ _
    have hcd : IsDigit c := hd c (List.mem_append_right _ hmem)
    have h48 : 48 ≤ c.toNat := by have := hcd.1; rwa [zero_toNat] at this
    have h57 : c.toNat ≤ 57 := by have := hcd.2; rwa [nine_toNat] at this
    have hv : (r1 : Int) * 10 + ((c.toNat : Int) - ('0'.toNat : Int))
        = ((r1 * 10 + (c.toNat - 48) : Nat) : Int) := by
      rw [zero_toNat]; push_cast; omega
    have hq : ∀ n : Nat, (n : Int).tdiv 256 = ((n / 256 : Nat) : Int) :=
      fun n => (Int.ofNat_tdiv n 256).symm
    rw [he]
    simp only
    rw [hv, hq, tmod_natCast, zero_toNat]
    have hq9 : (r1 * 10 + (c.toNat - 48)) / 256 ≤ 9 := by omega
    have hr : (r1 * 10 + (c.toNat - 48)) % 256 < 256 := Nat.mod_lt _ (by decide)
    refine ⟨⟨by omega, by omega⟩, ⟨by omega, by omega⟩, ?_, ⟨by omega, by omega⟩⟩
    exact isDigit_toChar _ hq9
  · rw [he2]; simp only; omega
  · simp only [divmod256, he2]
    rw [toByte_natCast r2 hlt2]

/-- Witness of C20: the string `"987654"` after its first three digits. -/
theorem divmod256_bounds_witness :
    IsDigitString ("987".toList ++ "654".toList)
      ∧ (0 ≤ (divmod256Loop "987".toList [] 0).2 ∧ (divmod256Loop "987".toList [] 0).2 ≤ 255)
      ∧ IsDigitString (divmod256 ("987".toList ++ "654".toList)).1 :=
  ⟨by decide,
    (divmod256_bounds "987".toList "654".toList (by decide)).2.1,
    (divmod256_bounds "987".toList "654".toList (by decide)).2.2.2.2.1⟩

/-- C18, output names: for every non-empty file name `f`, mode `"enc"` names the output
`f ++ ".enc"` and mode `"dec"` names the output of that file `f` again; a name `g` of at
most 4 characters, or not ending in `".enc"`, is kept as it is in mode `"dec"`. -/
theorem outputName_roundtrip (f g : List Char) (hne : f ≠ [])
    (hg : g.length ≤ 4 ∨ ¬ ".enc".toList <:+ g) :
    outputName f "enc".toList = some (f ++ ".enc".toList)
      ∧ outputName (f ++ ".enc".toList) "dec".toList = some f
      ∧ outputName g "dec".toList = some g := by
  have hde : ¬ ("dec".toList = "enc".toList) := by decide
  have h4 : ".enc".toList.length = 4 := by decide
  refine ⟨by simp [outputName], ?_, ?_⟩
  · have hlen : (f ++ ".enc".toList).length - 4 = f.length := by
      rw [List.length_append, h4]; omega
    have hpos : 0 < f.length := List.length_pos.2 hne
    have hcond : (f ++ ".enc".toList).length > 4
        ∧ (f ++ ".enc".toList).drop ((f ++ ".enc".toList).length - 4) = ".enc".toList := by
      constructor
      · rw [List.length_append, h4]; omega
      · rw [hlen, List.drop_left]
    rw [outputName, if_neg hde, if_pos rfl, if_pos hcond, hlen, List.take_left]
  · have hcond : ¬ (g.length > 4 ∧ g.drop (g.length - 4) = ".enc".toList) := by
      rintro ⟨h1, h2⟩
      rcases hg with h | h
      · omega
      · apply h
        rw [← h2]
        exact List.drop_suffix _ _
    rw [outputName, if_neg hde, if_pos rfl, if_neg hcond]

/-- Witness of C18: the names `"a"` and `".enc"`. -/
theorem outputName_roundtrip_witness :
    "a".toList ≠ [] ∧ (".enc".toList.length ≤ 4 ∨ ¬ ".enc".toList <:+ ".enc".toList)
      ∧ outputName "a".toList "enc".toList = some ("a".toList ++ ".enc".toList)
      ∧ outputName ("a".toList ++ ".enc".toList) "dec".toList = some "a".toList
      ∧ outputName ".enc".toList "dec".toList = some ".enc".toList :=
  ⟨by decide, Or.inl (by decide),
    outputName_roundtrip "a".toList ".enc".toList (by decide) (Or.inl (by decide))⟩

theorem decimalStringToBytes_head_ne_zero (d : List Char) (hd : IsDigitString d)
    (hz : decimalValue d ≠ 0) :
    ∃ (x : Byte) (rest : List Byte), decimalStringToBytes d = some (x :: rest) ∧ x ≠ 0 := by
  obtain ⟨b, hb, hv⟩ := decimalStringToBytes_spec d hd
  rw [if_neg hz] at hv
  cases b with
  | nil =>
    have := (Nat.digits_ne_nil_iff_ne_zero (b := 256)).2 hz
    exact absurd (List.reverse_eq_nil_iff.1 hv.symm) this
  | cons x rest =>
    refine ⟨x, rest, hb, ?_⟩
    intro hx
    have hdig : Nat.digits 256 (decimalValue d) = (rest.map Fin.val).reverse ++ [x.val] := by
      have := congrArg List.reverse hv
      rw [List.reverse_reverse, List.map_cons, List.reverse_cons] at this
      exact this.symm
    have hlast := Nat.getLast_digit_ne_zero 256 hz
    simp only [hdig, List.getLast_append_singleton] at hlast
    exact hlast (by rw [hx]; rfl)

/-- C19, the zero key: for every non-empty string `d` of decimal digits and every non-empty
byte sequence `M`, the key derived from `d` exists and mode `"enc"` returns with it; the
output is `M` itself when `d` denotes zero, and its first byte is not the first byte of `M`
when `d` denotes a number other than zero. -/
theorem zero_key_identity (d : List Char) (M : List Byte) (hne : d ≠ [])
    (hd : IsDigitString d) (hM : M ≠ []) :
    ∃ key out : List Byte, decimalStringToBytes d = some key
      ∧ transcode key "enc".toList M = .done out
      ∧ (decimalValue d = 0 → out = M)
      ∧ (decimalValue d ≠ 0 → out.head? ≠ M.head?) := by
  by_cases hz : decimalValue d = 0
  · obtain ⟨b, hb, hv⟩ := decimalStringToBytes_spec d hd
    rw [if_pos hz] at hv
    have hb0 : b = [0] := map_val_injective b [0] (by rw [hv]; rfl)
    subst hb0
    refine ⟨[0], _, hb, transcode_spec [0] _ (by simp) M, ?_, fun h => absurd hz h⟩
    intro _
    rw [stream_single_key]
    conv_rhs => rw [← List.map_id M]
    apply List.map_congr_left
    intro x _
    apply Fin.ext
    rw [resultByte_enc_val]
    have := x.isLt
    simp only [Fin.val_zero, Nat.add_zero, id_eq]
    omega
  · obtain ⟨x, rest, hb, hx⟩ := decimalStringToBytes_head_ne_zero d hd hz
    refine ⟨x :: rest, _, hb, transcode_spec (x :: rest) _ (by simp) M,
      fun h => absurd h hz, ?_⟩
    intro _
    cases M with
    | nil => exact absurd rfl hM
    | cons m ms =>
      have hk : keyAt (x :: rest) 0 = x := by simp [keyAt]
      rw [stream, hk]
      simp only [List.head?_cons, ne_eq, Option.some.injEq]
      intro heq
      have hval := congrArg Fin.val heq
      rw [resultByte_enc_val] at hval
      have h1 := m.isLt
      have h2 := x.isLt
      have h3 : x.val ≠ 0 := fun h => hx (Fin.ext h)
      omega

/-- Witness of C19: the key `"256"` on the bytes `7, 8`. -/
theorem zero_key_identity_witness :
    "256".toList ≠ [] ∧ IsDigitString "256".toList ∧ ([7, 8] : List Byte) ≠ []
      ∧ ∃ key out : List Byte, decimalStringToBytes "256".toList = some key
        ∧ transcode key "enc".toList [7, 8] = .done out
        ∧ (decimalValue "256".toList = 0 → out = [7, 8])
        ∧ (decimalValue "256".toList ≠ 0 → out.head? ≠ ([7, 8] : List Byte).head?) :=
  ⟨by decide, by decide, by decide,
    zero_key_identity "256".toList [7, 8] (by decide) (by decide) (by decide)⟩

/-! ## The key cursor -/

theorem forLoopCursors_spec (key : List Byte) (buffer : List Byte) :
    ∀ offset : Nat, forLoopCursors key buffer (offset % key.length)
      = (List.range buffer.length).map fun i => (offset + i) % key.length := by
  induction buffer with
  | nil => intro offset; rfl
  | cons b rest ih =>
    intro offset
    have hnext : (offset % key.length + 1) % key.length = (offset + 1) % key.length :=
      Nat.mod_add_mod _ _ _
    rw [forLoopCursors, hnext, ih (offset + 1), List.length_cons, List.range_succ_eq_map,
      List.map_cons, List.map_map]
    congr 1
    apply List.map_congr_left
    intro i _
    show (offset + 1 + i) % key.length = (offset + (i + 1)) % key.length
    congr 1
    omega

theorem processChunksCursors_spec (key : List Byte) (chunks : List (List Byte)) :
    ∀ step : Nat, processChunksCursors key chunks step
      = (List.range chunks.flatten.length).map fun i => (step + i) % key.length := by
  induction chunks with
  | nil => intro step; rfl
  | cons c rest ih =>
    intro step
    rw [processChunksCursors, forLoopCursors_spec, ih, List.flatten_cons, List.length_append,
      List.range_add, List.map_append, List.map_map]
    congr 1
    apply List.map_congr_left
    intro i _
    show (step + c.length + i) % key.length = (step + (c.length + i)) % key.length
    congr 1
    omega

theorem stream_eq_zipWith (key : List Byte) (mode : List Char) (input : List Byte) :
    ∀ offset : Nat, stream key mode offset input
      = List.zipWith (fun x i => resultByte mode x (key.getD i 0)) input
          ((List.range input.length).map fun i => (offset + i) % key.length) := by
  induction input with
  | nil => intro offset; rfl
  | cons x rest ih =>
    intro offset
    rw [stream, ih (offset + 1), List.length_cons, List.range_succ_eq_map, List.map_cons,
      List.map_map, List.zipWith_cons_cons]
    congr 1
    congr 1
    apply List.map_congr_left
    intro i _
    show (offset + 1 + i) % key.length = (offset + (i + 1)) % key.length
    congr 1
    omega

/-- C15, key-phase invariant: for every non-empty key and every sequence of chunks read
from step 0, the cursor `keyIndex` at the byte of global offset `n` is `n mod keyLen`, which
lies in `[0, keyLen)` so that `key[keyIndex]` is in bounds, and the loop writes each byte
rewritten with the key byte at that cursor.  The `for` loop entered at `step mod keyLen`
leaves the cursor at `(step mod keyLen + bytes of the buffer) mod keyLen`, which is the
cursor `(step + bytes of the buffer) mod keyLen` the next buffer starts from; the cursor at
the first byte of a file is 0, `processFile` running this loop from step 0 on each file. -/
theorem key_phase_invariant (key : List Byte) (mode : List Char) (chunks : List (List Byte))
    (step : Nat) (buffer : List Byte) (n : Nat) (hk : key ≠ [])
    (hn : n < chunks.flatten.length) :
    (processChunksCursors key chunks 0).length = chunks.flatten.length
      ∧ (processChunksCursors key chunks 0)[n]? = some (n % key.length)
      ∧ n % key.length < key.length
      ∧ key[n % key.length]? ≠ none
      ∧ processChunks key mode chunks 0
          = .done (List.zipWith (fun x i => resultByte mode x (key.getD i 0)) chunks.flatten
              (processChunksCursors key chunks 0))
      ∧ (∃ out : List Byte,
          forLoop key mode buffer (step % key.length)
              = .done (out, (step % key.length + buffer.length) % key.length)
            ∧ chunkBody key mode step buffer = .done (out, step + buffer.length))
      ∧ (step + buffer.length) % key.length
          = (step % key.length + buffer.length) % key.length
      ∧ (processChunksCursors key chunks 0).head? = some 0
      ∧ transcode key mode chunks.flatten = processChunks key mode chunks 0 := by
  have hlen : 0 < key.length := List.length_pos.2 hk
  have hmod : n % key.length < key.length := Nat.mod_lt _ hlen
  have hcur := processChunksCursors_spec key chunks 0
  simp only [Nat.zero_add] at hcur
  refine ⟨?_, ?_, hmod, ?_, ?_, ?_, (Nat.mod_add_mod _ _ _).symm, ?_,
    by rw [transcode_spec key mode hk, processChunks_spec key mode hk]⟩
  · rw [hcur, List.length_map, List.length_range]
  · rw [hcur, List.getElem?_map, List.getElem?_range hn]
    rfl
  · rw [List.getElem?_eq_getElem hmod]
    exact Option.some_ne_none _
  · rw [processChunks_spec key mode hk, stream_eq_zipWith, hcur]
    simp only [Nat.zero_add]
  · refine ⟨stream key mode step buffer, ?_, chunkBody_spec key mode hk step buffer⟩
    rw [forLoop_spec key mode hk buffer step, Nat.mod_add_mod]
  · rw [hcur]
    obtain ⟨m, hm⟩ : ∃ m, chunks.flatten.length = m + 1 := ⟨chunks.flatten.length - 1, by omega⟩
    rw [hm, List.range_succ_eq_map, List.map_cons, List.head?_cons, Nat.zero_mod]

/-- Witness of C15: a key of length 3, the chunks `[1, 2]`, `[3, 4, 5]`, offset 4. -/
theorem key_phase_invariant_witness :
    ([10, 20, 30] : List Byte) ≠ []
      ∧ 4 < ([[1, 2], [3, 4, 5]] : List (List Byte)).flatten.length
      ∧ (processChunksCursors [10, 20, 30] [[1, 2], [3, 4, 5]] 0)[4]?
          = some (4 % ([10, 20, 30] : List Byte).length)
      ∧ (processChunksCursors [10, 20, 30] [[1, 2], [3, 4, 5]] 0).head? = some 0 :=
  ⟨by decide, by decide,
    (key_phase_invariant [10, 20, 30] "enc".toList [[1, 2], [3, 4, 5]] 2 [3, 4, 5] 4
      (by decide) (by decide)).2.1,
    (key_phase_invariant [10, 20, 30] "enc".toList [[1, 2], [3, 4, 5]] 2 [3, 4, 5] 4
      (by decide) (by decide)).2.2.2.2.2.2.2.1⟩

end XorCpp
